import Mathlib

/-!
Verification of the plantr seeder core: the dependency resolver
(`resolveDependencyOrder` in `dependency-resolver.ts`) and the execution
engine (`runSeedersCore` in `run-seeders.ts`, with the run-active flag from
`seeding-state.ts` wired in by `create-seeder-instance.ts`).

The embedding is executable: JavaScript `Map`s and plain objects are
modelled as insertion-ordered association lists (`omapGet` / `omapSet`,
where `set` replaces the first matching key in place, as a JS `Map` does),
the `while` loop of Kahn's algorithm and the recursive DFS of `findCycle`
are modelled with an explicit fuel parameter that is proved sufficient, and
the side effects of the engine (invoking a unit's work function, reporting
a resolution failure, toggling the process-wide seeding flag) are recorded
in an explicit event trace.
-/

set_option autoImplicit false

namespace Plantr

/-! ## Insertion-ordered association maps (JS `Map` / plain object semantics) -/

/-- Lookup of the first entry with the given key, like `Map.get`. -/
def omapGet {α : Type} : List (String × α) → String → Option α
  | [], _ => none
  | p :: rest, k => if p.1 = k then some p.2 else omapGet rest k

/-- Replace the value at an existing key in place, else append a fresh entry:
exactly the insertion-order behaviour of `Map.set` / object assignment. -/
def omapSet {α : Type} : List (String × α) → String → α → List (String × α)
  | [], k, v => [(k, v)]
  | p :: rest, k, v => if p.1 = k then (k, v) :: rest else p :: omapSet rest k v

/-- The keys of the map, in insertion order. -/
def omapKeys {α : Type} (m : List (String × α)) : List String := m.map (fun p => p.1)

/-! ## Data model (`types.ts`) -/

/-- A seeder definition: `name`, the dependency names extracted from
`dependsOn`, and the work function `run`.  The work function receives the
context and the dependency-outputs record (a name-keyed record whose
entries may be absent, hence `Option ω`) and either returns an output or
throws, modelled by `Except`. -/
structure Seeder (γ ω ε : Type) where
  name : String
  dependsOn : List String
  run : γ → List (String × Option ω) → Except ε ω

/-- Status of a seeder execution (`SeederStatus` in `types.ts`). -/
inductive SeederStatus
  | pending
  | running
  | completed
  | failed
  | skipped
  deriving DecidableEq, Repr

/-- Result of running a seeder (`SeederResult` in `types.ts`): optional
fields are `Option`s that are `none` when the TS field is absent. -/
structure SeederResult (ω ε : Type) where
  name : String
  status : SeederStatus
  durationMs : Option Nat
  output : Option ω
  error : Option ε
  deriving DecidableEq

/-- The structural errors thrown by the resolver
(`CircularDependencyError` and `MissingDependencyError`). -/
inductive ResolveError
  | circularDependencyError (cycle : List String)
  | missingDependencyError (seeder : String) (missingDep : String)
  deriving DecidableEq, Repr

/-! ## Dependency resolver (`dependency-resolver.ts`) -/

variable {γ ω ε : Type}

/-- The name-keyed lookup map built at the top of `resolveDependencyOrder`
(and again in `runSeedersCore`): later duplicates overwrite earlier ones. -/
def buildSeederMap (seeders : List (Seeder γ ω ε)) : List (String × Seeder γ ω ε) :=
  seeders.foldl (fun m s => omapSet m s.name s) []

/-- The validation pass: the first `(seeder, dep)` pair, in iteration
order, whose dependency name is absent from the seeder map. -/
def firstMissingDep (smap : List (String × Seeder γ ω ε)) :
    List (Seeder γ ω ε) → Option (String × String)
  | [] => none
  | s :: rest =>
    match s.dependsOn.find? (fun d => (omapGet smap d).isNone) with
    | some d => some (s.name, d)
    | none => firstMissingDep smap rest

/-- First initialization loop: every seeder gets in-degree `0` and an empty
dependents list. -/
def initGraph (seeders : List (Seeder γ ω ε)) :
    List (String × Int) × List (String × List String) :=
  seeders.foldl (fun acc s => (omapSet acc.1 s.name 0, omapSet acc.2 s.name [])) ([], [])

/-- Push `u` onto the dependents entry of `d` (only when `d` is a key, per
the `if (deps)` guard in the source). -/
def pushDependent (u : String) (dp : List (String × List String)) (d : String) :
    List (String × List String) :=
  match omapGet dp d with
  | some lst => omapSet dp d (lst ++ [u])
  | none => dp

/-- Second loop: in-degree of a seeder is overwritten with the length of
its own dependency list, and for each dependency `d` the seeder's name is
pushed onto `dependents[d]`. -/
def buildGraph (seeders : List (Seeder γ ω ε)) :
    List (String × Int) × List (String × List String) :=
  seeders.foldl
    (fun acc s =>
      (omapSet acc.1 s.name (s.dependsOn.length : Int),
       s.dependsOn.foldl (pushDependent s.name) acc.2))
    (initGraph seeders)

/-- The seeds of the ready queue: all zero-in-degree names, in map
iteration order (= registry insertion order). -/
def initialQueue (inDeg : List (String × Int)) : List String :=
  (inDeg.filter (fun p => p.2 == 0)).map (fun p => p.1)

/-- One dependent's decrement: lower its in-degree by one and, if it just
reached zero, append it to the pending queue additions. -/
def pdStep (acc : List (String × Int) × List String) (d : String) :
    List (String × Int) × List String :=
  let nd := ((omapGet acc.1 d).getD 0) - 1
  (omapSet acc.1 d nd, if nd = 0 then acc.2 ++ [d] else acc.2)

/-- One queue element's processing: decrement every dependent's in-degree
and append the ones that reach zero to the pending queue additions. -/
def processDependents (ds : List String) (inDeg : List (String × Int)) :
    List (String × Int) × List String :=
  ds.foldl pdStep (inDeg, [])

/-- Fuel-based rendering of the `while (queue.length > 0)` loop: pop the
head, append it to the result, process its dependents.  The fuel passed by
`resolveOrder` is proved sufficient (`kahnLoop_fuel_irrelevant`), so the
fuel-exhaustion branch is never taken. -/
def kahnLoop (dependents : List (String × List String)) :
    Nat → List String → List (String × Int) → List String → List String
  | 0, _, _, result => result
  | _ + 1, [], _, result => result
  | fuel + 1, q :: queue, inDeg, result =>
    let step := processDependents ((omapGet dependents q).getD []) inDeg
    kahnLoop dependents fuel (queue ++ step.2) step.1 (result ++ [q])

/-- Termination measure of the queue loop: total positive in-degree plus
queue length; it strictly decreases at every iteration. -/
def sumPosNat (m : List (String × Int)) : Nat :=
  (m.map (fun p => p.2.toNat)).sum

/-- The order produced by the Kahn phase of `resolveDependencyOrder`
(lines 49-92 of `dependency-resolver.ts`), before the length check. -/
def resolveOrder (seeders : List (Seeder γ ω ε)) : List String :=
  let g := buildGraph seeders
  let queue := initialQueue g.1
  kahnLoop g.2 (sumPosNat g.1 + queue.length + 1) queue g.1 []

/-- The dependency list of the unit a name maps to (empty when the map has
no entry, matching the `if (seeder)` guard of the source's `dfs`). -/
def depsOfMap (smap : List (String × Seeder γ ω ε)) (n : String) : List String :=
  match omapGet smap n with
  | some s => s.dependsOn
  | none => []

mutual

/-- DFS over the unresolved seeders (`findCycle`'s inner `dfs`): `inl c`
means a cycle was found and `c` is `path.slice(cycleStart)`; `inr v` means
no cycle was found and `v` is the updated visited set.  The fuel bounds the
recursion depth and is proved sufficient. -/
def dfsVisit (smap : List (String × Seeder γ ω ε)) :
    Nat → List String → List String → String → List String ⊕ List String
  | 0, visited, _, _ => Sum.inr visited
  | fuel + 1, visited, path, name =>
    if name ∈ path then Sum.inl (path.drop (path.indexOf name))
    else if name ∈ visited then Sum.inr visited
    else dfsDeps smap fuel (name :: visited) (path ++ [name]) (depsOfMap smap name)
termination_by fuel _ _ _ => (fuel, 0)

/-- Sequential exploration of a node's dependency list, threading the
visited set, short-circuiting on a found cycle. -/
def dfsDeps (smap : List (String × Seeder γ ω ε)) :
    Nat → List String → List String → List String → List String ⊕ List String
  | _, visited, _, [] => Sum.inr visited
  | fuel, visited, path, d :: rest =>
    match dfsVisit smap fuel visited path d with
    | Sum.inl c => Sum.inl c
    | Sum.inr v2 => dfsDeps smap fuel v2 path rest
termination_by fuel _ _ ds => (fuel, ds.length + 1)

end

/-- The outer loop of `findCycle`: try a DFS from each remaining seeder,
resetting the path but keeping the visited set; `none` if every DFS comes
back empty-handed. -/
def findCycleLoop (smap : List (String × Seeder γ ω ε)) (fuel : Nat) :
    List String → List (Seeder γ ω ε) → Option (List String)
  | _, [] => none
  | visited, s :: rest =>
    match dfsVisit smap fuel visited [] s.name with
    | Sum.inl c => some c
    | Sum.inr v2 => findCycleLoop smap fuel v2 rest

/-- `findCycle` of `dependency-resolver.ts`: a cycle among the remaining
seeders, or the fallback listing of all remaining names. -/
def findCycle (remaining : List (Seeder γ ω ε))
    (smap : List (String × Seeder γ ω ε)) : List String :=
  match findCycleLoop smap (smap.length + 1) [] remaining with
  | some c => c
  | none => remaining.map (fun s => s.name)

/-- `resolveDependencyOrder`: validation pass, Kahn phase, length check
with `findCycle`-based error reporting; `Except` models `throw`. -/
def resolveDependencyOrder (seeders : List (Seeder γ ω ε)) :
    Except ResolveError (List String) :=
  let smap := buildSeederMap seeders
  match firstMissingDep smap seeders with
  | some p => Except.error (ResolveError.missingDependencyError p.1 p.2)
  | none =>
    let order := resolveOrder seeders
    if order.length = seeders.length then Except.ok order
    else
      Except.error (ResolveError.circularDependencyError
        (findCycle (seeders.filter (fun s => ! order.contains s.name)) smap))

/-! ## Execution engine (`run-seeders.ts`) -/

/-- Observable side effects of one run, in order: a unit's work function
being invoked, the resolver failure being reported to the caller, and the
process-wide seeding flag being written (`setSeedingActive`). -/
inductive RunEvent
  | workInvoked (name : String)
  | resolveFailed (e : ResolveError)
  | flagSet (active : Bool)
  deriving DecidableEq, Repr

/-- The per-unit loop of `runSeedersCore` (lines 90-166).  State: the names
still to process, the accumulated outputs record, and the running
failed-set.  `timer` is the elapsed wall-clock duration observed for a
unit (the difference of the two `Date.now()` calls), an oracle parameter
since real time is outside the model.  Returns the ledger entries for the
remaining names together with the trace of work invocations.  The guard
`if (!name || !result) continue` (line 95) leaves the pre-initialized
`pending` entry in place when the name is falsy — the empty string; the
`!result` half can never fire because `results` is built dense with one
entry per ordered name. -/
def runLoop (smap : List (String × Seeder γ ω ε)) (cont : Bool)
    (timer : String → Nat) (ctx : γ) :
    List String → List (String × ω) → List String →
      List (SeederResult ω ε) × List RunEvent
  | [], _, _ => ([], [])
  | name :: rest, outputs, failed =>
    if name = "" then
      let r := runLoop smap cont timer ctx rest outputs failed
      (⟨name, SeederStatus.pending, none, none, none⟩ :: r.1, r.2)
    else
    match omapGet smap name with
    | none =>
      let r := runLoop smap cont timer ctx rest outputs failed
      (⟨name, SeederStatus.pending, none, none, none⟩ :: r.1, r.2)
    | some seeder =>
      if cont ∧ seeder.dependsOn.any (fun d => failed.contains d) then
        let r := runLoop smap cont timer ctx rest outputs (name :: failed)
        (⟨name, SeederStatus.skipped, none, none, none⟩ :: r.1, r.2)
      else
        match seeder.run ctx (seeder.dependsOn.map (fun d => (d, omapGet outputs d))) with
        | Except.ok out =>
          let r := runLoop smap cont timer ctx rest (omapSet outputs name out) failed
          (⟨name, SeederStatus.completed, some (timer name), some out, none⟩ :: r.1,
           RunEvent.workInvoked name :: r.2)
        | Except.error e =>
          if cont then
            let r := runLoop smap cont timer ctx rest outputs (name :: failed)
            (⟨name, SeederStatus.failed, some (timer name), none, some e⟩ :: r.1,
             RunEvent.workInvoked name :: r.2)
          else
            (⟨name, SeederStatus.failed, some (timer name), none, some e⟩ ::
               rest.map (fun n => ⟨n, SeederStatus.pending, none, none, none⟩),
             [RunEvent.workInvoked name])

/-- What one engine invocation hands back: the ledger, the derived success
flag, and the observable event trace. -/
structure RunOutcome (ω ε : Type) where
  results : List (SeederResult ω ε)
  success : Bool
  events : List RunEvent

/-- `runSeedersCore`: resolve the order (reporting a structural failure
and returning an empty ledger on error), then execute the units in order;
`success` is "no result has status `failed`". -/
def runSeedersCore (seeders : List (Seeder γ ω ε)) (cont : Bool)
    (timer : String → Nat) (ctx : γ) : RunOutcome ω ε :=
  match resolveDependencyOrder seeders with
  | Except.error e => ⟨[], false, [RunEvent.resolveFailed e]⟩
  | Except.ok order =>
    let r := runLoop (buildSeederMap seeders) cont timer ctx order [] []
    ⟨r.1, r.1.countP (fun x => x.status == SeederStatus.failed) == 0, r.2⟩

/-- The instance-level `runSeeders` of `create-seeder-instance.ts`: its
`onBeforeAll` hook sets the seeding flag to `true` before anything else in
`runSeedersCore` runs, and its `onAfterAll` hook resets it to `false`
immediately before either return of `runSeedersCore`. -/
def runSeeders (seeders : List (Seeder γ ω ε)) (cont : Bool)
    (timer : String → Nat) (ctx : γ) : RunOutcome ω ε :=
  let core := runSeedersCore seeders cont timer ctx
  ⟨core.results, core.success,
   RunEvent.flagSet true :: core.events ++ [RunEvent.flagSet false]⟩

/-- The value of the module-level `isSeeding` flag of `seeding-state.ts`
after a trace of events: initialized `false`, overwritten by each
`setSeedingActive` call. -/
def flagAfter (events : List RunEvent) : Bool :=
  events.foldl
    (fun st e =>
      match e with
      | RunEvent.flagSet b => b
      | _ => st)
    false

/-! ## Concrete registries exercising the theorems -/

/-- Unit "A": no dependencies, succeeds with output `0`. -/
def uA : Seeder Unit Nat Unit := ⟨"A", [], fun _ _ => Except.ok 0⟩

/-- Unit "B": depends on "A", succeeds with output `1`. -/
def uB : Seeder Unit Nat Unit := ⟨"B", ["A"], fun _ _ => Except.ok 1⟩

/-- Unit "C": no dependencies, succeeds with output `2`. -/
def uC : Seeder Unit Nat Unit := ⟨"C", [], fun _ _ => Except.ok 2⟩

/-- Failing variant of unit "A": no dependencies, always throws. -/
def uAfail : Seeder Unit Nat Unit := ⟨"A", [], fun _ _ => Except.error ()⟩

/-- Unit "S": depends on itself. -/
def uSelf : Seeder Unit Nat Unit := ⟨"S", ["S"], fun _ _ => Except.ok 0⟩

/-- Unit "M": depends on the absent name "ghost". -/
def uMiss : Seeder Unit Nat Unit := ⟨"M", ["ghost"], fun _ _ => Except.ok 0⟩

/-- First unit of the duplicate-name pair. -/
def dupA1 : Seeder Unit Nat Unit := ⟨"A", [], fun _ _ => Except.ok 0⟩

/-- Second unit of the duplicate-name pair: same name, different work. -/
def dupA2 : Seeder Unit Nat Unit := ⟨"A", [], fun _ _ => Except.ok 1⟩

/-- A unit bearing the empty name: no dependencies, would succeed with
output `5` — but the engine's falsy-name guard never invokes it. -/
def uEmpty : Seeder Unit Nat Unit := ⟨"", [], fun _ _ => Except.ok 5⟩

/-- The constant duration oracle used by the concrete runs. -/
def timer7 : String → Nat := fun _ => 7

/-! ## The dependency graph, spec-level -/

/-- `DepEdge seeders u v`: some registry unit named `u` declares `v` among
its dependency names ("`u` depends on `v`"). -/
def DepEdge (seeders : List (Seeder γ ω ε)) (u v : String) : Prop :=
  ∃ s ∈ seeders, s.name = u ∧ v ∈ s.dependsOn

/-- A registry is acyclic when no unit transitively depends on itself. -/
def Acyclic (seeders : List (Seeder γ ω ε)) : Prop :=
  ∀ u, ¬ Relation.TransGen (DepEdge seeders) u u

/-- A nonempty name sequence forming a genuine dependency cycle: each
member depends on the next, and the last depends on the first. -/
def IsDepCycle (seeders : List (Seeder γ ω ε)) : List String → Prop
  | [] => False
  | a :: rest =>
    List.Chain' (DepEdge seeders) (a :: rest) ∧
      DepEdge seeders ((a :: rest).getLast (by simp)) a

/-! ## Spec model of the ordering algorithm (for the refinement claim)

Modelled from the spec: the ordering algorithm of §4.1.  In-degree of each
unit is the length of its own dependency list; the reverse adjacency
structure registers `u` as a dependent of `d` for every edge `u depends on
d`, in registry iteration order; the ready queue is seeded with the
zero-in-degree units in registry order; processing is FIFO (head removed,
newly-ready dependents appended), which is the step discipline `kahnLoop`
renders verbatim, so the spec model reuses it on its own directly-built
structures. -/

/-- Modelled from the spec: in-degree of each unit is the count of its own
declared dependencies, listed in registry iteration order. -/
def specInDegree (seeders : List (Seeder γ ω ε)) : List (String × Int) :=
  seeders.map (fun s => (s.name, (s.dependsOn.length : Int)))

/-- Modelled from the spec: the dependents of `d` are the units declaring
an edge to `d`, once per declared edge, in registry iteration order. -/
def specDependentsOf (seeders : List (Seeder γ ω ε)) (d : String) : List String :=
  seeders.flatMap (fun s => (s.dependsOn.filter (fun x => x == d)).map (fun _ => s.name))

/-- Modelled from the spec: the full reverse adjacency structure, one entry
per registry unit. -/
def specDependents (seeders : List (Seeder γ ω ε)) : List (String × List String) :=
  seeders.map (fun s => (s.name, specDependentsOf seeders s.name))

/-- Modelled from the spec: Kahn's algorithm with the spec's discipline
(registry-order seeding, FIFO queue, decrement-on-pop). -/
def specKahnOrder (seeders : List (Seeder γ ω ε)) : List String :=
  let inDeg := specInDegree seeders
  let queue := initialQueue inDeg
  kahnLoop (specDependents seeders) (sumPosNat inDeg + queue.length + 1) queue inDeg []

/-! ## Derived notions stated over the embedded code -/

/-- The names of the registry units, in registry order. -/
def seederNames (seeders : List (Seeder γ ω ε)) : List String :=
  seeders.map (fun s => s.name)

/-- The dependency list of the unit bearing a name (first match, which is
the unique match when names are unique). -/
def depsOf (seeders : List (Seeder γ ω ε)) (n : String) : List String :=
  match seeders.find? (fun s => s.name == n) with
  | some s => s.dependsOn
  | none => []

/-- Remaining in-degree of `n` once the units of `result` have been popped:
the declared dependency count minus the already-processed occurrences. -/
def degExp (seeders : List (Seeder γ ω ε)) (result : List String) (n : String) : Int :=
  ((depsOf seeders n).length : Int) -
    ((depsOf seeders n).countP (fun d => decide (d ∈ result)) : Int)

/-- Loop invariant of the Kahn phase: the in-degree map matches `degExp`,
queue and result are disjoint name-sets, the queue holds exactly the
unpopped names whose dependencies are all popped, and the popped prefix
respects dependency precedence. -/
structure KahnInv {γ ω ε : Type} (seeders : List (Seeder γ ω ε)) (queue : List String)
    (inDeg : List (String × Int)) (result : List String) : Prop where
  deg : ∀ n, omapGet inDeg n =
    if n ∈ seederNames seeders then some (degExp seeders result n) else none
  ndr : result.Nodup
  ndq : queue.Nodup
  disj : ∀ n ∈ result, n ∉ queue
  subr : ∀ n ∈ result, n ∈ seederNames seeders
  subq : ∀ n ∈ queue, n ∈ seederNames seeders
  qiff : ∀ n ∈ seederNames seeders,
    (n ∈ queue ↔ n ∉ result ∧ ∀ d ∈ depsOf seeders n, d ∈ result)
  prec : ∀ u ∈ result, ∀ d ∈ depsOf seeders u,
    d ∈ result ∧ result.indexOf d < result.indexOf u

/-- Edge relation read off the seeder map. -/
def DepEdgeMap {γ ω ε : Type} (smap : List (String × Seeder γ ω ε)) (u v : String) : Prop :=
  v ∈ depsOfMap smap u

/-- A nonempty name sequence forming a genuine cycle of the map's edge
relation. -/
def IsCycleMap {γ ω ε : Type} (smap : List (String × Seeder γ ω ε))
    (c : List String) : Prop :=
  c ≠ [] ∧ List.Chain' (DepEdgeMap smap) c ∧
    ∀ x ∈ c.getLast?, ∀ y ∈ c.head?, DepEdgeMap smap x y

/-- Count of the map's keys not yet visited: the DFS depth measure. -/
def kRem {γ ω ε : Type} (smap : List (String × Seeder γ ω ε))
    (visited : List String) : Nat :=
  ((omapKeys smap).filter (fun x => decide (x ∉ visited))).length

/-- Every dependency named by a mapped seeder is itself a key. -/
def DepsClosed {γ ω ε : Type} (smap : List (String × Seeder γ ω ε)) : Prop :=
  ∀ n s, omapGet smap n = some s → ∀ d ∈ s.dependsOn, d ∈ omapKeys smap

/-- A rank certificate: every visited node off the current path has all of
its dependencies visited, off the path, and of strictly smaller rank. -/
def RankInv {γ ω ε : Type} (smap : List (String × Seeder γ ω ε))
    (visited path : List String) : Prop :=
  ∃ ρ : String → Nat, ∀ v ∈ visited, v ∉ path →
    ∀ d ∈ depsOfMap smap v, d ∈ visited ∧ d ∉ path ∧ ρ d < ρ v

/-- The field discipline of one ledger entry: duration exactly on
completion or failure, output only on completion, error only on failure. -/
def fieldInv {ω ε : Type} (e : SeederResult ω ε) : Prop :=
  (e.durationMs.isSome ↔ (e.status = SeederStatus.completed ∨ e.status = SeederStatus.failed)) ∧
  (e.output.isSome → e.status = SeederStatus.completed) ∧
  (e.error.isSome → e.status = SeederStatus.failed)

/-- Entries with statuses `failed` before later entries: the shape of a
stop-on-first-failure ledger. -/
def afterFailedPending {ω ε : Type} (l : List (SeederResult ω ε)) : Prop :=
  ∀ i j (hi : i < l.length) (hj : j < l.length), i < j →
    (l.get ⟨i, hi⟩).status = SeederStatus.failed →
    (l.get ⟨j, hj⟩).status = SeederStatus.pending

/-- The continue-on-failure skip condition: some declared dependency of the
unit is in the initial failed-set or among the names of already-processed
entries whose status is `skipped` or `failed` (the running failed-set). -/
def skipCond {γ ω ε : Type} (smap : List (String × Seeder γ ω ε))
    (failed : List String) (processed : List (SeederResult ω ε)) (name : String) : Prop :=
  ∃ d ∈ depsOfMap smap name,
    d ∈ failed ∨
      d ∈ (processed.filter
        (fun e => e.status == SeederStatus.skipped || e.status == SeederStatus.failed)).map
          (fun e => e.name)

/-! ## Lemmas about the insertion-ordered maps -/

section OmapLemmas

variable {α : Type}

theorem omapGet_set_self (m : List (String × α)) (k : String) (v : α) :
    omapGet (omapSet m k v) k = some v := by
  induction m with
  | nil => simp [omapSet, omapGet]
  | cons p rest ih =>
    by_cases h : p.1 = k
    · simp [omapSet, h, omapGet]
    · simp [omapSet, h, omapGet, ih]

theorem omapGet_set_ne (m : List (String × α)) (k k2 : String) (v : α) (h : k ≠ k2) :
    omapGet (omapSet m k v) k2 = omapGet m k2 := by
  induction m with
  | nil => simp [omapSet, omapGet, h]
  | cons p rest ih =>
    by_cases hp : p.1 = k
    · simp [omapSet, hp, omapGet, h]
    · simp only [omapSet, hp, if_false, omapGet, ih]

theorem omapGet_eq_none_iff (m : List (String × α)) (k : String) :
    omapGet m k = none ↔ k ∉ omapKeys m := by
  induction m with
  | nil => simp [omapGet, omapKeys]
  | cons p rest ih =>
    by_cases h : p.1 = k
    · simp [omapGet, h, omapKeys]
    · simp [omapGet, h, omapKeys, ih, Ne.symm h]

theorem omapGet_isSome_iff (m : List (String × α)) (k : String) :
    (omapGet m k).isSome = true ↔ k ∈ omapKeys m := by
  rw [Option.isSome_iff_ne_none, ne_eq, omapGet_eq_none_iff, not_not]

theorem omapKeys_set_mem (m : List (String × α)) (k : String) (v : α)
    (h : k ∈ omapKeys m) : omapKeys (omapSet m k v) = omapKeys m := by
  induction m with
  | nil => simp [omapKeys] at h
  | cons p rest ih =>
    by_cases hp : p.1 = k
    · simp [omapSet, hp, omapKeys]
    · have : k ∈ omapKeys rest := by
        simpa [omapKeys, hp, Ne.symm hp] using h
      have ihr := ih this
      simp only [omapSet, hp, if_false, omapKeys, List.map_cons] at ihr ⊢
      rw [ihr]

theorem omapSet_absent (m : List (String × α)) (k : String) (v : α)
    (h : k ∉ omapKeys m) : omapSet m k v = m ++ [(k, v)] := by
  induction m with
  | nil => simp [omapSet]
  | cons p rest ih =>
    have hp : p.1 ≠ k := by
      intro hc
      exact h (by simp [omapKeys, hc])
    have : k ∉ omapKeys rest := by
      intro hc
      exact h (by simp [omapKeys] at hc ⊢; exact Or.inr hc)
    simp [omapSet, hp, ih this]

theorem omapSet_append_left (pre m : List (String × α)) (k : String) (v : α)
    (h : k ∉ omapKeys pre) : omapSet (pre ++ m) k v = pre ++ omapSet m k v := by
  induction pre with
  | nil => simp only [List.nil_append]
  | cons p rest ih =>
    have hp : p.1 ≠ k := by
      intro hc
      exact h (by simp [omapKeys, hc])
    have : k ∉ omapKeys rest := by
      intro hc
      exact h (by simp [omapKeys] at hc ⊢; exact Or.inr hc)
    simp [omapSet, hp, ih this]

theorem omapGet_append (pre m : List (String × α)) (k : String) :
    omapGet (pre ++ m) k =
      match omapGet pre k with
      | some v => some v
      | none => omapGet m k := by
  induction pre with
  | nil => simp [omapGet]
  | cons p rest ih =>
    by_cases hp : p.1 = k
    · simp [omapGet, hp]
    · simp [omapGet, hp, ih]

theorem omapGet_map_structure (l : List (Seeder γ ω ε)) (f : Seeder γ ω ε → α)
    (n : String) :
    omapGet (l.map (fun s => (s.name, f s))) n =
      (l.find? (fun s => s.name == n)).map f := by
  induction l with
  | nil => simp [omapGet]
  | cons s rest ih =>
    by_cases h : s.name = n
    · simp [omapGet, List.find?, h]
    · rw [List.map_cons]
      rw [show omapGet ((s.name, f s) :: rest.map (fun s => (s.name, f s))) n
            = omapGet (rest.map (fun s => (s.name, f s))) n by simp [omapGet, h]]
      rw [ih, List.find?_cons_of_neg]
      simp [h]

end OmapLemmas

/-! ## Characterizing the graph-building folds -/

section GraphLemmas

variable {γ ω ε : Type}

theorem foldl_prod {σ β₁ β₂ : Type} (f : β₁ → σ → β₁) (g : β₂ → σ → β₂) :
    ∀ (l : List σ) (a : β₁) (b : β₂),
      l.foldl (fun acc s => (f acc.1 s, g acc.2 s)) (a, b) =
        (l.foldl f a, l.foldl g b)
  | [], _, _ => rfl
  | s :: rest, a, b => foldl_prod f g rest (f a s) (g b s)

theorem foldl_omapSet_fresh {α : Type} (f : Seeder γ ω ε → α) :
    ∀ (l : List (Seeder γ ω ε)) (m : List (String × α)),
      (∀ s ∈ l, s.name ∉ omapKeys m) → (l.map (fun s => s.name)).Nodup →
      l.foldl (fun m s => omapSet m s.name (f s)) m =
        m ++ l.map (fun s => (s.name, f s)) := by
  intro l
  induction l with
  | nil => intro m _ _; simp
  | cons s rest ih =>
    intro m hfr hnd
    have h1 : s.name ∉ omapKeys m := hfr s (by simp)
    have step : omapSet m s.name (f s) = m ++ [(s.name, f s)] := omapSet_absent m _ _ h1
    have hnd2 : (rest.map (fun s => s.name)).Nodup := by
      simpa using hnd.of_cons
    have hfr2 : ∀ t ∈ rest, t.name ∉ omapKeys (m ++ [(s.name, f s)]) := by
      intro t ht
      have hall : (∀ x ∈ rest, ¬ x.name = s.name) ∧
          (rest.map (fun s => s.name)).Nodup := by simpa using hnd
      have hne : t.name ≠ s.name := hall.1 t ht
      have : t.name ∉ omapKeys m := hfr t (by simp [ht])
      simp [omapKeys, List.map_append] at this ⊢
      exact ⟨this, hne⟩
    calc (s :: rest).foldl (fun m s => omapSet m s.name (f s)) m
        = rest.foldl (fun m s => omapSet m s.name (f s)) (m ++ [(s.name, f s)]) := by
          simp [List.foldl_cons, step]
      _ = (m ++ [(s.name, f s)]) ++ rest.map (fun s => (s.name, f s)) := ih _ hfr2 hnd2
      _ = m ++ (s :: rest).map (fun s => (s.name, f s)) := by simp

theorem foldl_omapSet_update {α : Type} (f g : Seeder γ ω ε → α) :
    ∀ (l : List (Seeder γ ω ε)) (pre : List (String × α)),
      (∀ s ∈ l, s.name ∉ omapKeys pre) → (l.map (fun s => s.name)).Nodup →
      l.foldl (fun m s => omapSet m s.name (f s))
          (pre ++ l.map (fun s => (s.name, g s))) =
        pre ++ l.map (fun s => (s.name, f s)) := by
  intro l
  induction l with
  | nil => intro pre _ _; simp
  | cons s rest ih =>
    intro pre hfr hnd
    have h1 : s.name ∉ omapKeys pre := hfr s (by simp)
    have step :
        omapSet (pre ++ (s.name, g s) :: rest.map (fun s => (s.name, g s)))
            s.name (f s) =
          (pre ++ [(s.name, f s)]) ++ rest.map (fun s => (s.name, g s)) := by
      rw [omapSet_append_left _ _ _ _ h1]
      simp [omapSet]
    have hnd2 : (rest.map (fun s => s.name)).Nodup := by
      simpa using hnd.of_cons
    have hfr2 : ∀ t ∈ rest, t.name ∉ omapKeys (pre ++ [(s.name, f s)]) := by
      intro t ht
      have hall : (∀ x ∈ rest, ¬ x.name = s.name) ∧
          (rest.map (fun s => s.name)).Nodup := by simpa using hnd
      have hne : t.name ≠ s.name := hall.1 t ht
      have : t.name ∉ omapKeys pre := hfr t (by simp [ht])
      simp [omapKeys, List.map_append] at this ⊢
      exact ⟨this, hne⟩
    calc (s :: rest).foldl (fun m s => omapSet m s.name (f s))
          (pre ++ (s :: rest).map (fun s => (s.name, g s)))
        = rest.foldl (fun m s => omapSet m s.name (f s))
            ((pre ++ [(s.name, f s)]) ++ rest.map (fun s => (s.name, g s))) := by
          simp only [List.map_cons, List.foldl_cons, step]
      _ = (pre ++ [(s.name, f s)]) ++ rest.map (fun s => (s.name, f s)) := ih _ hfr2 hnd2
      _ = pre ++ (s :: rest).map (fun s => (s.name, f s)) := by simp

theorem initGraph_eq (seeders : List (Seeder γ ω ε)) :
    initGraph seeders =
      (seeders.foldl (fun m s => omapSet m s.name 0) [],
       seeders.foldl (fun m s => omapSet m s.name []) []) := by
  simpa [initGraph] using
    foldl_prod (fun (m : List (String × Int)) (s : Seeder γ ω ε) => omapSet m s.name 0)
      (fun (m : List (String × List String)) s => omapSet m s.name []) seeders [] []

theorem buildGraph_eq (seeders : List (Seeder γ ω ε)) :
    buildGraph seeders =
      (seeders.foldl (fun m s => omapSet m s.name (s.dependsOn.length : Int))
         (initGraph seeders).1,
       seeders.foldl
         (fun dp s => s.dependsOn.foldl (pushDependent s.name) dp)
         (initGraph seeders).2) := by
  simpa [buildGraph] using
    foldl_prod
      (fun (m : List (String × Int)) (s : Seeder γ ω ε) =>
        omapSet m s.name (s.dependsOn.length : Int))
      (fun (dp : List (String × List String)) (s : Seeder γ ω ε) =>
        s.dependsOn.foldl (pushDependent s.name) dp)
      seeders (initGraph seeders).1 (initGraph seeders).2

theorem initGraph_fst (seeders : List (Seeder γ ω ε))
    (hn : (seeders.map (fun s => s.name)).Nodup) :
    (initGraph seeders).1 = seeders.map (fun s => (s.name, (0 : Int))) := by
  rw [initGraph_eq]
  simpa using
    foldl_omapSet_fresh (fun _ => (0 : Int)) seeders [] (by simp [omapKeys]) hn

theorem initGraph_snd (seeders : List (Seeder γ ω ε))
    (hn : (seeders.map (fun s => s.name)).Nodup) :
    (initGraph seeders).2 = seeders.map (fun s => (s.name, ([] : List String))) := by
  rw [initGraph_eq]
  simpa using
    foldl_omapSet_fresh (fun _ => ([] : List String)) seeders [] (by simp [omapKeys]) hn

theorem buildGraph_fst (seeders : List (Seeder γ ω ε))
    (hn : (seeders.map (fun s => s.name)).Nodup) :
    (buildGraph seeders).1 = specInDegree seeders := by
  rw [buildGraph_eq]
  show (seeders.foldl (fun m s => omapSet m s.name (s.dependsOn.length : Int))
      (initGraph seeders).1) = _
  rw [initGraph_fst seeders hn]
  have := foldl_omapSet_update (fun s : Seeder γ ω ε => (s.dependsOn.length : Int))
    (fun _ => (0 : Int)) seeders [] (by simp [omapKeys]) hn
  simpa [specInDegree] using this

theorem pushDependent_get_at (u : String) (dp : List (String × List String))
    (d : String) :
    omapGet (pushDependent u dp d) d = (omapGet dp d).map (fun lst => lst ++ [u]) := by
  unfold pushDependent
  rcases hd : omapGet dp d with _ | lst
  · simp [hd]
  · simp [omapGet_set_self]

theorem pushDependent_get_ne (u : String) (dp : List (String × List String))
    (d n : String) (h : n ≠ d) :
    omapGet (pushDependent u dp d) n = omapGet dp n := by
  unfold pushDependent
  rcases hd : omapGet dp d with _ | lst
  · rfl
  · exact omapGet_set_ne dp d n _ (fun hc => h hc.symm)

theorem cons_replicate_snoc (k : Nat) (u : String) :
    u :: List.replicate k u = List.replicate k u ++ [u] := by
  rw [← List.replicate_succ, List.replicate_succ']

/-- The inner loop of the graph build: for every occurrence of a key `n` in
`ds`, the name `u` is appended to `n`'s entry; missing keys are skipped. -/
theorem inner_dependents_get (u : String) :
    ∀ (ds : List String) (dp : List (String × List String)) (n : String),
      omapGet (ds.foldl (pushDependent u) dp) n =
        (omapGet dp n).map (fun lst => lst ++ List.replicate (ds.count n) u) := by
  intro ds
  induction ds with
  | nil => intro dp n; rcases h : omapGet dp n with _ | v <;> simp [h]
  | cons d rest ih =>
    intro dp n
    rw [List.foldl_cons, ih (pushDependent u dp d) n]
    by_cases hdn : n = d
    · subst hdn
      rw [pushDependent_get_at]
      rcases h : omapGet dp n with _ | lst
      · simp
      · simp [List.count_cons, List.append_assoc, cons_replicate_snoc]
        rw [List.replicate_succ']
    · rw [pushDependent_get_ne u dp d n hdn]
      rcases h : omapGet dp n with _ | lst <;> simp [List.count_cons, hdn]

/-- The outer loop: each seeder contributes its name to the entry of each
of its declared dependency names, once per occurrence. -/
theorem outer_dependents_get :
    ∀ (l : List (Seeder γ ω ε)) (dp : List (String × List String)) (n : String),
      omapGet
          (l.foldl (fun dp s => s.dependsOn.foldl (pushDependent s.name) dp) dp) n =
        (omapGet dp n).map
          (fun lst =>
            lst ++ l.flatMap (fun s => List.replicate (s.dependsOn.count n) s.name)) := by
  intro l
  induction l with
  | nil => intro dp n; rcases h : omapGet dp n with _ | v <;> simp [h]
  | cons s rest ih =>
    intro dp n
    rw [List.foldl_cons]
    rw [ih _ n]
    rw [inner_dependents_get s.name s.dependsOn dp n]
    rcases h : omapGet dp n with _ | v <;> simp [h, List.append_assoc]

theorem specDependentsOf_eq_replicate (seeders : List (Seeder γ ω ε)) (n : String) :
    specDependentsOf seeders n =
      seeders.flatMap (fun s => List.replicate (s.dependsOn.count n) s.name) := by
  unfold specDependentsOf
  congr 1
  funext s
  rw [List.map_const']
  congr 1
  rw [List.count]
  rw [List.countP_eq_length_filter]

theorem buildGraph_snd_get (seeders : List (Seeder γ ω ε))
    (hn : (seeders.map (fun s => s.name)).Nodup) (n : String) :
    omapGet (buildGraph seeders).2 n =
      (seeders.find? (fun s => s.name == n)).map
        (fun _ => specDependentsOf seeders n) := by
  rw [buildGraph_eq]
  show omapGet (seeders.foldl _ (initGraph seeders).2) n = _
  rw [outer_dependents_get seeders (initGraph seeders).2 n]
  rw [initGraph_snd seeders hn]
  rw [omapGet_map_structure seeders (fun _ => ([] : List String)) n]
  rw [specDependentsOf_eq_replicate]
  cases seeders.find? (fun s => s.name == n) <;> simp

theorem specDependents_get (seeders : List (Seeder γ ω ε)) (n : String) :
    omapGet (specDependents seeders) n =
      (seeders.find? (fun s => s.name == n)).map
        (fun _ => specDependentsOf seeders n) := by
  unfold specDependents
  rw [omapGet_map_structure seeders (fun s => specDependentsOf seeders s.name) n]
  rcases hf : seeders.find? (fun s => s.name == n) with _ | s
  · simp [hf]
  · have : s.name = n := by simpa using List.find?_some hf
    simp [hf, this]

theorem kahnLoop_congr (d₁ d₂ : List (String × List String))
    (h : ∀ q, (omapGet d₁ q).getD [] = (omapGet d₂ q).getD []) :
    ∀ (fuel : Nat) (queue : List String) (inDeg : List (String × Int))
      (result : List String),
      kahnLoop d₁ fuel queue inDeg result = kahnLoop d₂ fuel queue inDeg result := by
  intro fuel
  induction fuel with
  | zero => intro queue inDeg result; rfl
  | succ fuel ih =>
    intro queue inDeg result
    cases queue with
    | nil => rfl
    | cons q rest =>
      show kahnLoop d₁ fuel _ _ _ = kahnLoop d₂ fuel _ _ _
      rw [h q]
      exact ih _ _ _

/-- The Kahn phase of the source computes exactly the spec's rendering of
Kahn's algorithm, for any registry with unique names. -/
theorem resolveOrder_eq_specKahnOrder (seeders : List (Seeder γ ω ε))
    (hn : (seeders.map (fun s => s.name)).Nodup) :
    resolveOrder seeders = specKahnOrder seeders := by
  simp only [resolveOrder, specKahnOrder]
  rw [buildGraph_fst seeders hn]
  exact kahnLoop_congr _ _
    (fun q => by rw [buildGraph_snd_get seeders hn q, specDependents_get seeders q]) _ _ _ _

end GraphLemmas

/-! ## Spec-level view of the graph and the Kahn invariants -/

section KahnLemmas

variable {γ ω ε : Type}

theorem degExp_nil (seeders : List (Seeder γ ω ε)) (n : String) :
    degExp seeders [] n = ((depsOf seeders n).length : Int) := by
  simp [degExp]

theorem degExp_nonneg (seeders : List (Seeder γ ω ε)) (result : List String)
    (n : String) : 0 ≤ degExp seeders result n := by
  have := List.countP_le_length (l := depsOf seeders n) (fun d => decide (d ∈ result))
  unfold degExp
  omega

theorem degExp_eq_zero_iff (seeders : List (Seeder γ ω ε)) (result : List String)
    (n : String) :
    degExp seeders result n = 0 ↔ ∀ d ∈ depsOf seeders n, d ∈ result := by
  have hle := List.countP_le_length (l := depsOf seeders n) (fun d => decide (d ∈ result))
  constructor
  · intro h d hd
    have hlen : (depsOf seeders n).countP (fun d => decide (d ∈ result)) =
        (depsOf seeders n).length := by
      unfold degExp at h
      omega
    have := List.countP_eq_length.mp hlen d hd
    simpa using this
  · intro h
    have : (depsOf seeders n).countP (fun d => decide (d ∈ result)) =
        (depsOf seeders n).length :=
      List.countP_eq_length.mpr (fun d hd => by simpa using h d hd)
    unfold degExp
    omega

theorem countP_mem_append_singleton (l result : List String) (q : String)
    (hq : q ∉ result) :
    l.countP (fun d => decide (d ∈ result ++ [q])) =
      l.countP (fun d => decide (d ∈ result)) + l.count q := by
  induction l with
  | nil => simp
  | cons a rest ih =>
    rw [List.countP_cons, List.countP_cons, List.count_cons, ih]
    by_cases ha : a = q
    · subst ha
      simp [hq]
      omega
    · by_cases har : a ∈ result <;> simp [har, ha, Ne.symm ha] <;> omega

theorem degExp_append (seeders : List (Seeder γ ω ε)) (result : List String)
    (q n : String) (hq : q ∉ result) :
    degExp seeders (result ++ [q]) n =
      degExp seeders result n - ((depsOf seeders n).count q : Int) := by
  unfold degExp
  rw [countP_mem_append_singleton _ _ _ hq]
  push_cast
  ring

theorem depsOf_mem_edge (seeders : List (Seeder γ ω ε)) (n d : String)
    (hd : d ∈ depsOf seeders n) : ∃ s ∈ seeders, s.name = n ∧ d ∈ s.dependsOn := by
  unfold depsOf at hd
  rcases hf : seeders.find? (fun s => s.name == n) with _ | s
  · rw [hf] at hd
    simp at hd
  · rw [hf] at hd
    refine ⟨s, List.mem_of_find?_eq_some hf, ?_, hd⟩
    simpa using List.find?_some hf

theorem find?_name_of_mem (seeders : List (Seeder γ ω ε))
    (hn : (seeders.map (fun s => s.name)).Nodup) (s : Seeder γ ω ε)
    (hs : s ∈ seeders) : seeders.find? (fun t => t.name == s.name) = some s := by
  induction seeders with
  | nil => simp at hs
  | cons t rest ih =>
    have hall : (∀ x ∈ rest, ¬ x.name = t.name) ∧
        (rest.map (fun s => s.name)).Nodup := by simpa using hn
    rcases List.mem_cons.mp hs with h | h
    · subst h
      simp [List.find?_cons]
    · have hne : t.name ≠ s.name := fun hc => hall.1 s h hc.symm
      rw [List.find?_cons_of_neg _ (by simpa using hne)]
      exact ih hall.2 h

theorem depsOf_of_mem (seeders : List (Seeder γ ω ε))
    (hn : (seeders.map (fun s => s.name)).Nodup) (s : Seeder γ ω ε)
    (hs : s ∈ seeders) : depsOf seeders s.name = s.dependsOn := by
  unfold depsOf
  rw [find?_name_of_mem seeders hn s hs]

theorem depEdge_iff_depsOf (seeders : List (Seeder γ ω ε))
    (hn : (seeders.map (fun s => s.name)).Nodup) (u v : String) :
    DepEdge seeders u v ↔ u ∈ seederNames seeders ∧ v ∈ depsOf seeders u := by
  constructor
  · rintro ⟨s, hs, hname, hv⟩
    subst hname
    exact ⟨List.mem_map_of_mem _ hs, by rw [depsOf_of_mem seeders hn s hs]; exact hv⟩
  · rintro ⟨hu, hv⟩
    rcases depsOf_mem_edge seeders u v hv with ⟨s, hs, hname, hd⟩
    exact ⟨s, hs, hname, hd⟩

theorem mem_specDependentsOf_names (seeders : List (Seeder γ ω ε)) (q n : String)
    (h : n ∈ specDependentsOf seeders q) : n ∈ seederNames seeders := by
  unfold specDependentsOf at h
  rcases List.mem_flatMap.mp h with ⟨s, hs, hmem⟩
  rcases List.mem_map.mp hmem with ⟨_, _, rfl⟩
  exact List.mem_map_of_mem _ hs

/-- Under unique names, the occurrences of `n` among the dependents of `q`
are exactly the occurrences of `q` among the dependencies of `n`. -/
theorem count_specDependentsOf (seeders : List (Seeder γ ω ε))
    (hn : (seeders.map (fun s => s.name)).Nodup) (q n : String) :
    (specDependentsOf seeders q).count n = (depsOf seeders n).count q := by
  induction seeders with
  | nil => simp [specDependentsOf, depsOf]
  | cons s rest ih =>
    have hall : (∀ x ∈ rest, ¬ x.name = s.name) ∧
        (rest.map (fun t => t.name)).Nodup := by simpa using hn
    have hcons : specDependentsOf (s :: rest) q =
        (s.dependsOn.filter (fun x => x == q)).map (fun _ => s.name) ++
          specDependentsOf rest q := by
      simp [specDependentsOf]
    rw [hcons, List.count_append]
    have hrepl : ((s.dependsOn.filter (fun x => x == q)).map (fun _ => s.name)).count n =
        if s.name == n then s.dependsOn.count q else 0 := by
      rw [List.map_const', List.count_replicate]
      congr 1
      rw [List.count, List.countP_eq_length_filter]
    rw [hrepl, ih hall.2]
    by_cases hsn : s.name = n
    · subst hsn
      have hdeps : depsOf (s :: rest) s.name = s.dependsOn :=
        depsOf_of_mem _ hn s (by simp)
      have hrest : depsOf rest s.name = [] := by
        unfold depsOf
        rw [List.find?_eq_none.mpr]
        intro t ht
        simpa using hall.1 t ht
      rw [hdeps, hrest]
      simp
    · have : depsOf (s :: rest) n = depsOf rest n := by
        unfold depsOf
        rw [List.find?_cons_of_neg _ (by simpa using hsn)]
      rw [this]
      simp [hsn]

theorem sumPosNat_cons (p : String × Int) (m : List (String × Int)) :
    sumPosNat (p :: m) = p.2.toNat + sumPosNat m := by
  simp [sumPosNat]

theorem sumPosNat_set (m : List (String × Int)) (k : String) (v v₀ : Int)
    (h : omapGet m k = some v₀) :
    sumPosNat (omapSet m k v) + v₀.toNat = sumPosNat m + v.toNat := by
  induction m with
  | nil => simp [omapGet] at h
  | cons p rest ih =>
    by_cases hp : p.1 = k
    · have : p.2 = v₀ := by
        simpa [omapGet, hp] using h
      subst this
      simp only [omapSet, hp, if_true, sumPosNat_cons]
      omega
    · have h2 : omapGet rest k = some v₀ := by
        simpa [omapGet, hp] using h
      simp only [omapSet, hp, if_false, sumPosNat_cons]
      have := ih h2
      omega

/-- Full characterization of the dependent-decrement fold: final degrees,
the appended newly-ready names (each at most once), and the measure. -/
theorem pdFold_char :
    ∀ (ds : List String) (m : List (String × Int)) (ps : List String),
      (∀ d ∈ ds, d ∈ omapKeys m) →
      (∀ n, omapGet (ds.foldl pdStep (m, ps)).1 n =
          (omapGet m n).map (fun v => v - (ds.count n : Int))) ∧
      (∃ newl, (ds.foldl pdStep (m, ps)).2 = ps ++ newl ∧ newl.Nodup ∧
        (∀ n, n ∈ newl ↔
          ∃ v, omapGet m n = some v ∧ 1 ≤ v ∧ v ≤ (ds.count n : Int))) ∧
      sumPosNat (ds.foldl pdStep (m, ps)).1 + (ds.foldl pdStep (m, ps)).2.length ≤
        sumPosNat m + ps.length := by
  intro ds
  induction ds with
  | nil =>
    intro m ps _
    refine ⟨?_, ⟨[], by simp, by simp, ?_⟩, by simp⟩
    · intro n
      rcases h : omapGet m n with _ | v <;> simp [h]
    · intro n
      constructor
      · intro h
        simp at h
      · rintro ⟨v, _, hv1, hv2⟩
        simp at hv2
        omega
  | cons d rest ih =>
    intro m ps hkeys
    have hd : d ∈ omapKeys m := hkeys d (by simp)
    rcases Option.isSome_iff_exists.mp ((omapGet_isSome_iff m d).mpr hd) with ⟨v₀, hv₀⟩
    have hstep : pdStep (m, ps) d =
        (omapSet m d (v₀ - 1), if v₀ - 1 = 0 then ps ++ [d] else ps) := by
      simp [pdStep, hv₀]
    have hkeys2 : ∀ x ∈ rest, x ∈ omapKeys (omapSet m d (v₀ - 1)) := by
      intro x hx
      rw [omapKeys_set_mem m d _ hd]
      exact hkeys x (by simp [hx])
    rw [List.foldl_cons, hstep]
    rcases ih (omapSet m d (v₀ - 1)) (if v₀ - 1 = 0 then ps ++ [d] else ps) hkeys2
      with ⟨ih1, ⟨newl1, hps, hnd1, hmem1⟩, ih3⟩
    refine ⟨?_, ?_, ?_⟩
    · intro n
      rw [ih1 n]
      by_cases hnd : n = d
      · subst hnd
        rw [omapGet_set_self, hv₀]
        have : (n :: rest).count n = rest.count n + 1 := by
          simp [List.count_cons]
        rw [this]
        simp only [Option.map_some']
        congr 1
        push_cast
        ring
      · rw [omapGet_set_ne m d n _ (fun hc => hnd hc.symm)]
        have : (d :: rest).count n = rest.count n := by
          simp [List.count_cons, fun hc => hnd (by simpa using hc)]
        rw [this]
    · refine ⟨(if v₀ - 1 = 0 then [d] else []) ++ newl1, ?_, ?_, ?_⟩
      · rw [hps]
        by_cases hc : v₀ - 1 = 0 <;> simp [hc]
      · by_cases hc : v₀ - 1 = 0
        · simp only [hc, if_true, List.singleton_append]
          refine List.nodup_cons.mpr ⟨?_, hnd1⟩
          intro hcontra
          rcases (hmem1 d).mp hcontra with ⟨v₁, hv₁, h1, _⟩
          rw [omapGet_set_self] at hv₁
          have : v₁ = v₀ - 1 := (Option.some.inj hv₁).symm
          omega
        · simpa [hc] using hnd1
      · intro n
        by_cases hnd : n = d
        · subst hnd
          have hcnt : (n :: rest).count n = rest.count n + 1 := by
            simp [List.count_cons]
          constructor
          · intro h
            rcases List.mem_append.mp h with h | h
            · have hc : v₀ - 1 = 0 := by
                by_contra hcc
                simp [hcc] at h
              refine ⟨v₀, hv₀, by omega, by rw [hcnt]; push_cast; omega⟩
            · rcases (hmem1 n).mp h with ⟨v₁, hv₁, h1, h2⟩
              rw [omapGet_set_self] at hv₁
              have : v₁ = v₀ - 1 := (Option.some.inj hv₁).symm
              subst this
              refine ⟨v₀, hv₀, by omega, by rw [hcnt]; push_cast at h2 ⊢; omega⟩
          · rintro ⟨v, hv, h1, h2⟩
            rw [hv₀] at hv
            have hvv : v₀ = v := Option.some.inj hv
            rw [← hvv] at h1 h2
            rw [hcnt] at h2
            push_cast at h2
            by_cases hc : v₀ - 1 = 0
            · simp [hc]
            · refine List.mem_append.mpr (Or.inr ?_)
              refine (hmem1 n).mpr ⟨v₀ - 1, by rw [omapGet_set_self], by omega, ?_⟩
              push_cast
              omega
        · have hcnt : (d :: rest).count n = rest.count n := by
            simp [List.count_cons, fun hc => hnd (by simpa using hc)]
          constructor
          · intro h
            rcases List.mem_append.mp h with h | h
            · by_cases hc : v₀ - 1 = 0 <;> simp [hc] at h
              exact absurd h hnd
            · rcases (hmem1 n).mp h with ⟨v₁, hv₁, h1, h2⟩
              rw [omapGet_set_ne m d n _ (fun hc => hnd hc.symm)] at hv₁
              exact ⟨v₁, hv₁, h1, by rw [hcnt]; exact h2⟩
          · rintro ⟨v, hv, h1, h2⟩
            refine List.mem_append.mpr (Or.inr ?_)
            refine (hmem1 n).mpr ⟨v, ?_, h1, by rw [hcnt] at h2; exact h2⟩
            rw [omapGet_set_ne m d n _ (fun hc => hnd hc.symm)]
            exact hv
    · refine le_trans ih3 ?_
      have hsum := sumPosNat_set m d (v₀ - 1) v₀ hv₀
      by_cases hc : v₀ - 1 = 0
      · rw [if_pos hc]
        simp only [List.length_append, List.length_singleton]
        omega
      · rw [if_neg hc]
        omega

theorem processDependents_char (ds : List String) (inDeg : List (String × Int))
    (hkeys : ∀ d ∈ ds, d ∈ omapKeys inDeg) :
    (∀ n, omapGet (processDependents ds inDeg).1 n =
        (omapGet inDeg n).map (fun v => v - (ds.count n : Int))) ∧
    ((processDependents ds inDeg).2.Nodup ∧
      (∀ n, n ∈ (processDependents ds inDeg).2 ↔
        ∃ v, omapGet inDeg n = some v ∧ 1 ≤ v ∧ v ≤ (ds.count n : Int))) ∧
    sumPosNat (processDependents ds inDeg).1 +
        (processDependents ds inDeg).2.length ≤ sumPosNat inDeg := by
  rcases pdFold_char ds inDeg [] hkeys with ⟨h1, ⟨newl, hps, hnd, hmem⟩, h3⟩
  have hps2 : (processDependents ds inDeg).2 = newl := by
    simpa [processDependents] using hps
  refine ⟨fun n => h1 n, ⟨by rw [hps2]; exact hnd, fun n => by rw [hps2]; exact hmem n⟩, ?_⟩
  simpa [processDependents] using h3

theorem indexOf_append_of_mem_left (l₁ l₂ : List String) (a : String) (h : a ∈ l₁) :
    (l₁ ++ l₂).indexOf a = l₁.indexOf a :=
  List.indexOf_append_of_mem h

theorem indexOf_append_of_not_mem_left (l₁ l₂ : List String) (a : String)
    (h : a ∉ l₁) : (l₁ ++ l₂).indexOf a = l₁.length + l₂.indexOf a := by
  induction l₁ with
  | nil => simp
  | cons b rest ih =>
    have hb : b ≠ a := fun hc => h (by simp [hc])
    have hrest : a ∉ rest := fun hc => h (by simp [hc])
    simp only [List.cons_append, List.length_cons]
    rw [List.indexOf_cons_ne _ hb, ih hrest]
    omega

end KahnLemmas

section KahnRun

variable {γ ω ε : Type}

/-- Main loop lemma: from any invariant-satisfying state with enough fuel,
the queue loop ends in an invariant-satisfying state with an empty queue. -/
theorem kahnLoop_run (seeders : List (Seeder γ ω ε))
    (hn : (seeders.map (fun s => s.name)).Nodup)
    (dependents : List (String × List String))
    (hdep : ∀ q ∈ seederNames seeders,
      (omapGet dependents q).getD [] = specDependentsOf seeders q) :
    ∀ (fuel : Nat) (queue : List String) (inDeg : List (String × Int))
      (result : List String),
      KahnInv seeders queue inDeg result →
      sumPosNat inDeg + queue.length < fuel →
      ∃ inDeg2, KahnInv seeders [] inDeg2 (kahnLoop dependents fuel queue inDeg result) := by
  intro fuel
  induction fuel with
  | zero => intro queue inDeg result _ hb; omega
  | succ fuel ih =>
    intro queue inDeg result hinv hb
    cases queue with
    | nil => exact ⟨inDeg, hinv⟩
    | cons q rest =>
      have hqnames : q ∈ seederNames seeders := hinv.subq q (by simp)
      have hds2 : (omapGet dependents q).getD [] = specDependentsOf seeders q :=
        hdep q hqnames
      have hqres : q ∉ result ∧ ∀ d ∈ depsOf seeders q, d ∈ result :=
        (hinv.qiff q hqnames).mp (by simp)
      have hdegget : ∀ n ∈ seederNames seeders,
          omapGet inDeg n = some (degExp seeders result n) := by
        intro n hn2
        rw [hinv.deg n]
        simp [hn2]
      have hkeys : ∀ d ∈ (omapGet dependents q).getD [], d ∈ omapKeys inDeg := by
        intro d hd
        rw [hds2] at hd
        have hdn : d ∈ seederNames seeders := mem_specDependentsOf_names seeders q d hd
        rw [← omapGet_isSome_iff, hdegget d hdn]
        rfl
      obtain ⟨hpd1, ⟨hpdnd, hpdmem⟩, hpdsum⟩ :=
        processDependents_char ((omapGet dependents q).getD []) inDeg hkeys
      have hcount : ∀ n, (((omapGet dependents q).getD []).count n : Int) =
          (((depsOf seeders n).count q : Nat) : Int) := by
        intro n
        rw [hds2, count_specDependentsOf seeders hn q n]
      have hmem2 : ∀ n,
          n ∈ (processDependents ((omapGet dependents q).getD []) inDeg).2 ↔
            n ∈ seederNames seeders ∧ 1 ≤ degExp seeders result n ∧
              degExp seeders result n ≤ ((depsOf seeders n).count q : Int) := by
        intro n
        rw [hpdmem n]
        constructor
        · rintro ⟨v, hv, h1, h2⟩
          have hnames : n ∈ seederNames seeders := by
            by_contra hc
            rw [hinv.deg n] at hv
            simp [hc] at hv
          rw [hdegget n hnames] at hv
          have hvv : degExp seeders result n = v := Option.some.inj hv
          rw [hcount n] at h2
          exact ⟨hnames, by omega, by omega⟩
        · rintro ⟨hnames, h1, h2⟩
          refine ⟨degExp seeders result n, hdegget n hnames, h1, ?_⟩
          rw [hcount n]
          exact h2
      have hdeg0res : ∀ u ∈ result, degExp seeders result u = 0 := by
        intro u hu
        exact (degExp_eq_zero_iff _ _ _).mpr (fun d hd => (hinv.prec u hu d hd).1)
      have hdeg0q : ∀ u ∈ q :: rest, degExp seeders result u = 0 := by
        intro u hu
        have hun := hinv.subq u hu
        exact (degExp_eq_zero_iff _ _ _).mpr ((hinv.qiff u hun).mp hu).2
      have hrestnd : rest.Nodup := (List.nodup_cons.mp hinv.ndq).2
      have hqrest : q ∉ rest := (List.nodup_cons.mp hinv.ndq).1
      -- the new invariant
      have hinv2 : KahnInv seeders
          (rest ++ (processDependents ((omapGet dependents q).getD []) inDeg).2)
          (processDependents ((omapGet dependents q).getD []) inDeg).1
          (result ++ [q]) := by
        refine ⟨?_, ?_, ?_, ?_, ?_, ?_, ?_, ?_⟩
        · intro n
          rw [hpd1 n, hinv.deg n]
          by_cases hnames : n ∈ seederNames seeders
          · simp only [hnames, if_true, Option.map_some']
            rw [degExp_append seeders result q n hqres.1, hcount n]
          · simp [hnames]
        · rw [List.nodup_append]
          exact ⟨hinv.ndr, List.nodup_singleton q,
            fun a ha hb2 => hqres.1 (by rwa [List.mem_singleton.mp hb2] at ha)⟩
        · rw [List.nodup_append]
          refine ⟨hrestnd, hpdnd, ?_⟩
          intro a ha hb2
          have h0 := hdeg0q a (by simp [ha])
          have h1 := ((hmem2 a).mp hb2).2.1
          omega
        · intro n hnr
          rcases List.mem_append.mp hnr with hnr | hnr
          · intro hq2
            rcases List.mem_append.mp hq2 with hq2 | hq2
            · exact hinv.disj n hnr (by simp [hq2])
            · have h0 := hdeg0res n hnr
              have h1 := ((hmem2 n).mp hq2).2.1
              omega
          · have hnq : n = q := List.mem_singleton.mp hnr
            subst hnq
            intro hq2
            rcases List.mem_append.mp hq2 with hq2 | hq2
            · exact hqrest hq2
            · have h0 := hdeg0q n (by simp)
              have h1 := ((hmem2 n).mp hq2).2.1
              omega
        · intro n hnr
          rcases List.mem_append.mp hnr with hnr | hnr
          · exact hinv.subr n hnr
          · rw [List.mem_singleton.mp hnr]
            exact hqnames
        · intro n hnq
          rcases List.mem_append.mp hnq with hnq | hnq
          · exact hinv.subq n (by simp [hnq])
          · exact ((hmem2 n).mp hnq).1
        · intro n hnames
          constructor
          · intro hnq
            rcases List.mem_append.mp hnq with hnq | hnq
            · have hold := (hinv.qiff n hnames).mp (by simp [hnq])
              have hneq : n ≠ q := fun hc => hqrest (hc ▸ hnq)
              refine ⟨?_, ?_⟩
              · intro hc
                rcases List.mem_append.mp hc with hc | hc
                · exact hold.1 hc
                · exact hneq (List.mem_singleton.mp hc)
              · intro d hd
                exact List.mem_append.mpr (Or.inl (hold.2 d hd))
            · obtain ⟨_, h1, h2⟩ := (hmem2 n).mp hnq
              have hnres : n ∉ result := fun hc => by
                have := hdeg0res n hc
                omega
              have hneq : n ≠ q := fun hc => by
                have := hdeg0q n (by simp [hc])
                omega
              refine ⟨?_, ?_⟩
              · intro hc
                rcases List.mem_append.mp hc with hc | hc
                · exact hnres hc
                · exact hneq (List.mem_singleton.mp hc)
              · have hd2 : degExp seeders (result ++ [q]) n = 0 := by
                  have := degExp_append seeders result q n hqres.1
                  have hge := degExp_nonneg seeders (result ++ [q]) n
                  omega
                exact (degExp_eq_zero_iff _ _ _).mp hd2
          · rintro ⟨hnres2, hdeps2⟩
            by_cases hall : ∀ d ∈ depsOf seeders n, d ∈ result
            · have hold := (hinv.qiff n hnames).mpr
                ⟨fun hc => hnres2 (List.mem_append.mpr (Or.inl hc)), hall⟩
              rcases List.mem_cons.mp hold with hc | hc
              · exact absurd (List.mem_append.mpr (Or.inr (by simp [hc])) :
                  n ∈ result ++ [q]) hnres2
              · exact List.mem_append.mpr (Or.inl hc)
            · push_neg at hall
              obtain ⟨d₀, hd₀, hd₀r⟩ := hall
              have hdz : degExp seeders (result ++ [q]) n = 0 :=
                (degExp_eq_zero_iff _ _ _).mpr hdeps2
              have happ := degExp_append seeders result q n hqres.1
              have hne0 : degExp seeders result n ≠ 0 := by
                intro hc
                exact hd₀r ((degExp_eq_zero_iff _ _ _).mp hc d₀ hd₀)
              have hge := degExp_nonneg seeders result n
              refine List.mem_append.mpr (Or.inr ((hmem2 n).mpr ⟨hnames, by omega, by omega⟩))
        · intro u hu d hd
          rcases List.mem_append.mp hu with hu | hu
          · obtain ⟨hdr, hidx⟩ := hinv.prec u hu d hd
            refine ⟨List.mem_append.mpr (Or.inl hdr), ?_⟩
            rw [indexOf_append_of_mem_left result [q] d hdr,
              indexOf_append_of_mem_left result [q] u hu]
            exact hidx
          · have huq : u = q := List.mem_singleton.mp hu
            have hdq : d ∈ depsOf seeders q := huq ▸ hd
            have hdr : d ∈ result := hqres.2 d hdq
            refine ⟨List.mem_append.mpr (Or.inl hdr), ?_⟩
            rw [huq]
            rw [indexOf_append_of_mem_left result [q] d hdr,
              indexOf_append_of_not_mem_left result [q] q hqres.1]
            have := List.indexOf_lt_length.mpr hdr
            simp [List.indexOf_cons]
            omega
      have hfuel2 : sumPosNat (processDependents ((omapGet dependents q).getD []) inDeg).1 +
          (rest ++ (processDependents ((omapGet dependents q).getD []) inDeg).2).length
            < fuel := by
        rw [List.length_append]
        simp only [List.length_cons] at hb
        omega
      exact ih _ _ _ hinv2 hfuel2

/-- The unit bearing a name that occurs in the registry. -/
theorem find?_name_char {γ ω ε : Type} (seeders : List (Seeder γ ω ε)) (n : String)
    (h : n ∈ seederNames seeders) :
    ∃ s, seeders.find? (fun s => s.name == n) = some s ∧ s.name = n ∧ s ∈ seeders := by
  rcases List.mem_map.mp h with ⟨s0, hs0, hname⟩
  have : ∃ x, seeders.find? (fun s => s.name == n) = some x := by
    rw [← Option.isSome_iff_exists, List.find?_isSome]
    exact ⟨s0, hs0, by simp [hname]⟩
  rcases this with ⟨s, hs⟩
  exact ⟨s, hs, by simpa using List.find?_some hs, List.mem_of_find?_eq_some hs⟩

theorem find?_name_eq_none {γ ω ε : Type} (seeders : List (Seeder γ ω ε)) (n : String)
    (h : n ∉ seederNames seeders) :
    seeders.find? (fun s => s.name == n) = none := by
  rw [List.find?_eq_none]
  intro s hs
  simp only [beq_iff_eq]
  intro hc
  exact h (by rw [← hc]; exact List.mem_map_of_mem _ hs)

theorem depsOf_eq_nil_of_not_mem {γ ω ε : Type} (seeders : List (Seeder γ ω ε))
    (n : String) (h : n ∉ seederNames seeders) : depsOf seeders n = [] := by
  unfold depsOf
  rw [find?_name_eq_none seeders n h]

section KahnInit

variable {γ ω ε : Type}

/-- The initial state of the Kahn phase satisfies the invariant. -/
theorem kahnInv_init (seeders : List (Seeder γ ω ε))
    (hn : (seeders.map (fun s => s.name)).Nodup) :
    KahnInv seeders (initialQueue (specInDegree seeders)) (specInDegree seeders) [] := by
  have hkeys : ∀ n, omapGet (specInDegree seeders) n =
      if n ∈ seederNames seeders then some ((depsOf seeders n).length : Int) else none := by
    intro n
    unfold specInDegree
    rw [omapGet_map_structure seeders (fun s => (s.dependsOn.length : Int)) n]
    by_cases h : n ∈ seederNames seeders
    · rcases find?_name_char seeders n h with ⟨s, hs, hname, hmem⟩
      rw [hs]
      have : depsOf seeders n = s.dependsOn := by
        unfold depsOf
        rw [hs]
      rw [this]
      simp [h]
    · rw [find?_name_eq_none seeders n h]
      simp [h]
  have hqueue : ∀ n, n ∈ initialQueue (specInDegree seeders) ↔
      n ∈ seederNames seeders ∧ depsOf seeders n = [] := by
    intro n
    unfold initialQueue specInDegree
    constructor
    · intro h
      rcases List.mem_map.mp h with ⟨p, hp, hp1⟩
      rcases List.mem_filter.mp hp with ⟨hpmem, hp2⟩
      rcases List.mem_map.mp hpmem with ⟨s, hs, hps⟩
      subst hps
      simp only at hp1 hp2
      subst hp1
      have hz : s.dependsOn.length = 0 := by
        have : (s.dependsOn.length : Int) = 0 := by simpa using hp2
        omega
      have hmem : s.name ∈ seederNames seeders := List.mem_map_of_mem _ hs
      refine ⟨hmem, ?_⟩
      have := depsOf_of_mem seeders hn s hs
      rw [this]
      exact List.length_eq_zero.mp hz
    · rintro ⟨hmem, hdeps⟩
      rcases List.mem_map.mp hmem with ⟨s, hs, hname⟩
      subst hname
      have hdeq := depsOf_of_mem seeders hn s hs
      rw [hdeq] at hdeps
      refine List.mem_map.mpr ⟨(s.name, (s.dependsOn.length : Int)), ?_, rfl⟩
      refine List.mem_filter.mpr ⟨List.mem_map.mpr ⟨s, hs, rfl⟩, ?_⟩
      simp [hdeps]
  have hqnodup : (initialQueue (specInDegree seeders)).Nodup := by
    have hsub : (initialQueue (specInDegree seeders)).Sublist
        ((specInDegree seeders).map (fun p => p.1)) :=
      (List.filter_sublist _).map _
    have : (specInDegree seeders).map (fun p => p.1) = seeders.map (fun s => s.name) := by
      simp [specInDegree]
    rw [this] at hsub
    exact hn.sublist hsub
  refine ⟨?_, List.nodup_nil, hqnodup, by simp, by simp, ?_, ?_, by simp⟩
  · intro n
    rw [hkeys n]
    by_cases h : n ∈ seederNames seeders <;> simp [h, degExp_nil]
  · intro n hq
    exact ((hqueue n).mp hq).1
  · intro n hmem
    rw [hqueue n]
    constructor
    · rintro ⟨_, h⟩
      refine ⟨by simp, ?_⟩
      intro d hd
      rw [h] at hd
      exact absurd hd (List.not_mem_nil d)
    · rintro ⟨_, h⟩
      refine ⟨hmem, List.eq_nil_iff_forall_not_mem.mpr ?_⟩
      intro d hd
      exact absurd (h d hd) (List.not_mem_nil d)

/-- The spec-modelled Kahn order, and hence (via
`resolveOrder_eq_specKahnOrder`) the source's Kahn phase, ends in an
invariant-satisfying state with an exhausted queue. -/
theorem specKahnOrder_inv (seeders : List (Seeder γ ω ε))
    (hn : (seeders.map (fun s => s.name)).Nodup) :
    ∃ inDeg2, KahnInv seeders [] inDeg2 (specKahnOrder seeders) := by
  have hdep : ∀ q ∈ seederNames seeders,
      (omapGet (specDependents seeders) q).getD [] = specDependentsOf seeders q := by
    intro q hq
    rw [specDependents_get seeders q]
    rcases find?_name_char seeders q hq with ⟨s, hs, _, _⟩
    rw [hs]
    rfl
  exact kahnLoop_run seeders hn (specDependents seeders) hdep _ _ _ _
    (kahnInv_init seeders hn) (by omega)

theorem resolveOrder_inv (seeders : List (Seeder γ ω ε))
    (hn : (seeders.map (fun s => s.name)).Nodup) :
    ∃ inDeg2, KahnInv seeders [] inDeg2 (resolveOrder seeders) := by
  rw [resolveOrder_eq_specKahnOrder seeders hn]
  exact specKahnOrder_inv seeders hn

end KahnInit

/-- In a finite set in which every element has a successor inside the set,
some element lies on a cycle. -/
theorem transGen_self_of_closed (r : String → String → Prop) (R : List String)
    (x : String) (hx : x ∈ R) (hcl : ∀ u ∈ R, ∃ v, v ∈ R ∧ r u v) :
    ∃ u, Relation.TransGen r u u := by
  classical
  have hchoice : ∀ (u : {y // y ∈ R}), ∃ (v : {y // y ∈ R}), r u.1 v.1 := by
    rintro ⟨u, hu⟩
    rcases hcl u hu with ⟨v, hv, hrv⟩
    exact ⟨⟨v, hv⟩, hrv⟩
  choose f hf using hchoice
  set g : Nat → {y // y ∈ R} := fun k => f^[k] ⟨x, hx⟩ with hg
  have hstep : ∀ k, r (g k).1 (g (k + 1)).1 := by
    intro k
    have : g (k + 1) = f (g k) := Function.iterate_succ_apply' f k _
    rw [this]
    exact hf (g k)
  have hchain : ∀ i k, Relation.TransGen r (g i).1 (g (i + k + 1)).1 := by
    intro i k
    induction k with
    | zero => exact Relation.TransGen.single (hstep i)
    | succ k ihk => exact Relation.TransGen.tail ihk (hstep (i + k + 1))
  obtain ⟨i, j, hne, heq⟩ := Finite.exists_ne_map_eq_of_infinite g
  have key : ∀ i j : Nat, i < j → g i = g j → ∃ u, Relation.TransGen r u u := by
    intro i j hij he
    have ht : Relation.TransGen r (g i).1 (g j).1 := by
      have hj : j = i + (j - i - 1) + 1 := by omega
      rw [hj]
      exact hchain i (j - i - 1)
    rw [he] at ht
    exact ⟨(g j).1, ht⟩
  rcases lt_trichotomy i j with h | h | h
  · exact key i j h heq
  · exact absurd h hne
  · exact key j i h heq.symm

section KahnFinal

variable {γ ω ε : Type}

/-- At loop exit, every unpopped unit has an unpopped dependency. -/
theorem kahn_final_closed (seeders : List (Seeder γ ω ε))
    (hdeps : ∀ s ∈ seeders, ∀ d ∈ s.dependsOn, d ∈ seederNames seeders)
    {inDeg2 : List (String × Int)} {result : List String}
    (hinv : KahnInv seeders [] inDeg2 result) :
    ∀ u, u ∈ seederNames seeders → u ∉ result →
      ∃ d, (d ∈ seederNames seeders ∧ d ∉ result) ∧ DepEdge seeders u d := by
  intro u hu hur
  have hq := hinv.qiff u hu
  simp only [List.not_mem_nil, false_iff, not_and] at hq
  have := hq hur
  push_neg at this
  rcases this with ⟨d, hd, hdr⟩
  rcases depsOf_mem_edge seeders u d hd with ⟨s, hs, hname, hdep⟩
  exact ⟨d, ⟨hdeps s hs d hdep, hdr⟩, ⟨s, hs, hname, hdep⟩⟩

/-- Acyclicity forces the loop to pop every unit. -/
theorem kahn_final_complete (seeders : List (Seeder γ ω ε))
    (hdeps : ∀ s ∈ seeders, ∀ d ∈ s.dependsOn, d ∈ seederNames seeders)
    (hacyc : Acyclic seeders)
    {inDeg2 : List (String × Int)} {result : List String}
    (hinv : KahnInv seeders [] inDeg2 result) :
    ∀ n ∈ seederNames seeders, n ∈ result := by
  by_contra hc
  push_neg at hc
  rcases hc with ⟨x, hx, hxr⟩
  have hcl : ∀ u ∈ (seederNames seeders).filter (fun y => decide (y ∉ result)),
      ∃ v, v ∈ (seederNames seeders).filter (fun y => decide (y ∉ result)) ∧
        DepEdge seeders u v := by
    intro u hu
    rcases List.mem_filter.mp hu with ⟨hu1, hu2⟩
    rcases kahn_final_closed seeders hdeps hinv u hu1 (by simpa using hu2) with
      ⟨d, ⟨hd1, hd2⟩, hedge⟩
    exact ⟨d, List.mem_filter.mpr ⟨hd1, by simpa using hd2⟩, hedge⟩
  rcases transGen_self_of_closed (DepEdge seeders) _ x
    (List.mem_filter.mpr ⟨hx, by simpa using hxr⟩) hcl with ⟨u, hu⟩
  exact hacyc u hu

/-- If the loop popped every unit, precedence transfers along reachability. -/
theorem transGen_indexOf_lt (seeders : List (Seeder γ ω ε))
    (hn : (seeders.map (fun s => s.name)).Nodup)
    {inDeg2 : List (String × Int)} {result : List String}
    (hinv : KahnInv seeders [] inDeg2 result)
    (hall : ∀ n ∈ seederNames seeders, n ∈ result) :
    ∀ a b, Relation.TransGen (DepEdge seeders) a b →
      result.indexOf b < result.indexOf a := by
  have hone : ∀ a b, DepEdge seeders a b → result.indexOf b < result.indexOf a := by
    intro a b hedge
    rcases (depEdge_iff_depsOf seeders hn a b).mp hedge with ⟨ha, hb⟩
    exact (hinv.prec a (hall a ha) b hb).2
  intro a b h
  induction h with
  | single hedge => exact hone _ _ hedge
  | tail hab hbc ih => exact lt_trans (hone _ _ hbc) ih

/-- A cycle forces the loop to leave some unit unpopped. -/
theorem kahn_final_incomplete_of_cycle (seeders : List (Seeder γ ω ε))
    (hn : (seeders.map (fun s => s.name)).Nodup)
    (hcyc : ∃ u, Relation.TransGen (DepEdge seeders) u u)
    {inDeg2 : List (String × Int)} {result : List String}
    (hinv : KahnInv seeders [] inDeg2 result) :
    ∃ n ∈ seederNames seeders, n ∉ result := by
  by_contra hc
  push_neg at hc
  rcases hcyc with ⟨u, hu⟩
  exact absurd (transGen_indexOf_lt seeders hn hinv hc u u hu) (lt_irrefl _)

end KahnFinal

end KahnRun

/-! ## The seeder map and the validation pass -/

section SeederMapLemmas

variable {γ ω ε : Type}

theorem mem_omapKeys_set {α : Type} (m : List (String × α)) (k n : String) (v : α) :
    n ∈ omapKeys (omapSet m k v) ↔ n ∈ omapKeys m ∨ n = k := by
  induction m with
  | nil => simp [omapSet, omapKeys]
  | cons p rest ih =>
    by_cases hp : p.1 = k
    · simp only [omapSet, hp, if_true, omapKeys, List.map_cons, List.mem_cons]
      simp only [omapKeys] at ih ⊢
      constructor
      · rintro (h | h)
        · exact Or.inr h
        · exact Or.inl (Or.inr h)
      · rintro ((h | h) | h)
        · exact Or.inl (hp ▸ h)
        · exact Or.inr h
        · exact Or.inl h
    · simp only [omapSet, hp, if_false, omapKeys, List.map_cons, List.mem_cons]
      simp only [omapKeys] at ih
      rw [ih]
      tauto

theorem foldl_seederMap_mem_keys :
    ∀ (l : List (Seeder γ ω ε)) (m : List (String × Seeder γ ω ε)) (n : String),
      n ∈ omapKeys (l.foldl (fun m s => omapSet m s.name s) m) ↔
        n ∈ omapKeys m ∨ n ∈ seederNames l := by
  intro l
  induction l with
  | nil => intro m n; simp [seederNames]
  | cons s rest ih =>
    intro m n
    rw [List.foldl_cons, ih (omapSet m s.name s) n, mem_omapKeys_set]
    simp [seederNames]
    tauto

theorem mem_omapKeys_buildSeederMap (seeders : List (Seeder γ ω ε)) (n : String) :
    n ∈ omapKeys (buildSeederMap seeders) ↔ n ∈ seederNames seeders := by
  unfold buildSeederMap
  rw [foldl_seederMap_mem_keys seeders [] n]
  simp [omapKeys]

theorem foldl_seederMap_get_prop (P : String → Seeder γ ω ε → Prop) :
    ∀ (l : List (Seeder γ ω ε)) (m : List (String × Seeder γ ω ε)),
      (∀ k t, omapGet m k = some t → P k t) → (∀ s ∈ l, P s.name s) →
      ∀ k t, omapGet (l.foldl (fun m s => omapSet m s.name s) m) k = some t → P k t := by
  intro l
  induction l with
  | nil => intro m hm _ k t h; exact hm k t h
  | cons s rest ih =>
    intro m hm hl k t h
    refine ih (omapSet m s.name s) ?_ (fun x hx => hl x (by simp [hx])) k t h
    intro k2 t2 h2
    by_cases hk : s.name = k2
    · subst hk
      rw [omapGet_set_self] at h2
      rw [← Option.some.inj h2]
      exact hl s (by simp)
    · rw [omapGet_set_ne m s.name k2 s hk] at h2
      exact hm k2 t2 h2

theorem buildSeederMap_get_prop (seeders : List (Seeder γ ω ε)) (k : String)
    (t : Seeder γ ω ε) (h : omapGet (buildSeederMap seeders) k = some t) :
    t ∈ seeders ∧ t.name = k := by
  refine foldl_seederMap_get_prop (fun k t => t ∈ seeders ∧ t.name = k) seeders [] ?_ ?_ k t h
  · intro k2 t2 h2
    simp [omapGet] at h2
  · intro s hs
    exact ⟨hs, rfl⟩

theorem name_unique_of_nodup (seeders : List (Seeder γ ω ε))
    (hn : (seeders.map (fun s => s.name)).Nodup) (s t : Seeder γ ω ε)
    (hs : s ∈ seeders) (ht : t ∈ seeders) (hname : s.name = t.name) : s = t := by
  have h1 := find?_name_of_mem seeders hn s hs
  have h2 := find?_name_of_mem seeders hn t ht
  rw [hname] at h1
  rw [h1] at h2
  exact Option.some.inj h2

theorem buildSeederMap_get_eq_find? (seeders : List (Seeder γ ω ε))
    (hn : (seeders.map (fun s => s.name)).Nodup) (n : String) :
    omapGet (buildSeederMap seeders) n = seeders.find? (fun s => s.name == n) := by
  by_cases h : n ∈ seederNames seeders
  · rcases find?_name_char seeders n h with ⟨s, hs, hname, hmem⟩
    rw [hs]
    have hkey : n ∈ omapKeys (buildSeederMap seeders) :=
      (mem_omapKeys_buildSeederMap seeders n).mpr h
    rcases Option.isSome_iff_exists.mp ((omapGet_isSome_iff _ n).mpr hkey) with ⟨t, ht⟩
    rcases buildSeederMap_get_prop seeders n t ht with ⟨htmem, htname⟩
    rw [ht]
    congr 1
    exact name_unique_of_nodup seeders hn t s htmem hmem (by rw [htname, hname])
  · rw [find?_name_eq_none seeders n h]
    rw [omapGet_eq_none_iff]
    rw [mem_omapKeys_buildSeederMap]
    exact h

theorem firstMissingDep_eq_none_iff (smap : List (String × Seeder γ ω ε)) :
    ∀ (l : List (Seeder γ ω ε)),
      firstMissingDep smap l = none ↔
        ∀ s ∈ l, ∀ d ∈ s.dependsOn, (omapGet smap d).isSome := by
  intro l
  induction l with
  | nil => simp [firstMissingDep]
  | cons s rest ih =>
    unfold firstMissingDep
    rcases hf : s.dependsOn.find? (fun d => (omapGet smap d).isNone) with _ | d
    · rw [List.find?_eq_none] at hf
      simp only [ih]
      constructor
      · intro h t ht d hd
        rcases List.mem_cons.mp ht with rfl | ht2
        · have := hf d hd
          simpa [Option.isNone_iff_eq_none, ← Option.ne_none_iff_isSome] using this
        · exact h t ht2 d hd
      · intro h t ht d hd
        exact h t (by simp [ht]) d hd
    · simp only
      constructor
      · intro h
        exact absurd h (by simp)
      · intro h
        have hd := List.mem_of_find?_eq_some hf
        have hmiss := List.find?_some hf
        have := h s (by simp) d hd
        rw [Option.isNone_iff_eq_none] at hmiss
        rw [hmiss] at this
        simp at this

theorem firstMissingDep_some_char (smap : List (String × Seeder γ ω ε)) :
    ∀ (l : List (Seeder γ ω ε)) (p : String × String),
      firstMissingDep smap l = some p →
        ∃ s ∈ l, s.name = p.1 ∧ p.2 ∈ s.dependsOn ∧ omapGet smap p.2 = none := by
  intro l
  induction l with
  | nil => intro p h; simp [firstMissingDep] at h
  | cons s rest ih =>
    intro p h
    unfold firstMissingDep at h
    rcases hf : s.dependsOn.find? (fun d => (omapGet smap d).isNone) with _ | d
    · rw [hf] at h
      rcases ih p h with ⟨t, ht, h1, h2, h3⟩
      exact ⟨t, by simp [ht], h1, h2, h3⟩
    · rw [hf] at h
      have hp : p = (s.name, d) := (Option.some.inj h).symm
      subst hp
      refine ⟨s, by simp, rfl, List.mem_of_find?_eq_some hf, ?_⟩
      have := List.find?_some hf
      simpa [Option.isNone_iff_eq_none] using this

end SeederMapLemmas

/-! ## Resolver-level consequences -/

section ResolverTheorems

variable {γ ω ε : Type}

theorem validation_passes (seeders : List (Seeder γ ω ε))
    (hdeps : ∀ s ∈ seeders, ∀ d ∈ s.dependsOn, d ∈ seederNames seeders) :
    firstMissingDep (buildSeederMap seeders) seeders = none := by
  rw [firstMissingDep_eq_none_iff]
  intro s hs d hd
  rw [omapGet_isSome_iff, mem_omapKeys_buildSeederMap]
  exact hdeps s hs d hd

/-- On an acyclic registry with unique names and present dependencies, the
resolver returns the Kahn order, a permutation of the unit names, in which
every unit follows all of its dependencies. -/
theorem resolveDependencyOrder_of_acyclic (seeders : List (Seeder γ ω ε))
    (hn : (seeders.map (fun s => s.name)).Nodup)
    (hdeps : ∀ s ∈ seeders, ∀ d ∈ s.dependsOn, d ∈ seederNames seeders)
    (hacyc : Acyclic seeders) :
    resolveDependencyOrder seeders = Except.ok (resolveOrder seeders) ∧
      (resolveOrder seeders).Perm (seederNames seeders) ∧
      ∀ s ∈ seeders, ∀ d ∈ s.dependsOn,
        (resolveOrder seeders).indexOf d < (resolveOrder seeders).indexOf s.name := by
  obtain ⟨deg2, hinv⟩ := resolveOrder_inv seeders hn
  have hcomp := kahn_final_complete seeders hdeps hacyc hinv
  have hperm : (resolveOrder seeders).Perm (seederNames seeders) :=
    (hinv.ndr.subperm (fun x hx => hinv.subr x hx)).antisymm
      (List.Nodup.subperm hn (fun x hx => hcomp x hx))
  have hlen : (resolveOrder seeders).length = seeders.length := by
    rw [hperm.length_eq]
    simp [seederNames]
  have hval := validation_passes seeders hdeps
  refine ⟨?_, hperm, ?_⟩
  · simp only [resolveDependencyOrder]
    rw [hval]
    simp only
    rw [if_pos hlen]
  · intro s hs d hd
    have hdeq := depsOf_of_mem seeders hn s hs
    have hmem : s.name ∈ resolveOrder seeders :=
      hcomp s.name (List.mem_map_of_mem _ hs)
    have := hinv.prec s.name hmem d (by rw [hdeq]; exact hd)
    exact this.2

/-- On a registry with unique names, present dependencies, and a cycle, the
Kahn order is strictly shorter than the registry, and the resolver throws
`CircularDependencyError` built from `findCycle` over the unresolved
units. -/
theorem resolveDependencyOrder_of_cycle (seeders : List (Seeder γ ω ε))
    (hn : (seeders.map (fun s => s.name)).Nodup)
    (hdeps : ∀ s ∈ seeders, ∀ d ∈ s.dependsOn, d ∈ seederNames seeders)
    (hcyc : ∃ u, Relation.TransGen (DepEdge seeders) u u) :
    (resolveOrder seeders).length ≠ seeders.length ∧
      resolveDependencyOrder seeders =
        Except.error (ResolveError.circularDependencyError
          (findCycle (seeders.filter (fun s => ! (resolveOrder seeders).contains s.name))
            (buildSeederMap seeders))) := by
  obtain ⟨deg2, hinv⟩ := resolveOrder_inv seeders hn
  obtain ⟨n, hnn, hnr⟩ := kahn_final_incomplete_of_cycle seeders hn hcyc hinv
  have hlen : (resolveOrder seeders).length ≠ seeders.length := by
    intro hc
    have hsp : (resolveOrder seeders).Subperm (seederNames seeders) :=
      hinv.ndr.subperm (fun x hx => hinv.subr x hx)
    have hperm : (resolveOrder seeders).Perm (seederNames seeders) := by
      refine hsp.perm_of_length_le ?_
      have : (seederNames seeders).length = seeders.length := by simp [seederNames]
      omega
    exact hnr (hperm.mem_iff.mpr hnn)
  have hval := validation_passes seeders hdeps
  refine ⟨hlen, ?_⟩
  simp only [resolveDependencyOrder]
  rw [hval]
  simp only
  rw [if_neg hlen]

/-- A unit with an absent dependency name makes the resolver throw
`MissingDependencyError` naming an actual offending pair, regardless of any
cycle. -/
theorem resolveDependencyOrder_of_missing (seeders : List (Seeder γ ω ε))
    (hmiss : ∃ s ∈ seeders, ∃ d ∈ s.dependsOn, d ∉ seederNames seeders) :
    ∃ u m, resolveDependencyOrder seeders =
        Except.error (ResolveError.missingDependencyError u m) ∧
      ∃ s ∈ seeders, s.name = u ∧ m ∈ s.dependsOn ∧ m ∉ seederNames seeders := by
  have hne : firstMissingDep (buildSeederMap seeders) seeders ≠ none := by
    intro hc
    rcases hmiss with ⟨s, hs, d, hd, hdn⟩
    have := (firstMissingDep_eq_none_iff (buildSeederMap seeders) seeders).mp hc s hs d hd
    rw [omapGet_isSome_iff, mem_omapKeys_buildSeederMap] at this
    exact hdn this
  rcases hp : firstMissingDep (buildSeederMap seeders) seeders with _ | p
  · exact absurd hp hne
  · rcases firstMissingDep_some_char (buildSeederMap seeders) seeders p hp with
      ⟨s, hs, hname, hdep, hget⟩
    refine ⟨p.1, p.2, ?_, s, hs, hname, hdep, ?_⟩
    · simp only [resolveDependencyOrder]
      rw [hp]
    · rw [omapGet_eq_none_iff, mem_omapKeys_buildSeederMap] at hget
      exact hget

end ResolverTheorems

/-! ## Correctness of the cycle-reporting DFS -/

section DfsSound

variable {γ ω ε : Type}

theorem getLast?_drop_of_lt (l : List String) (i : Nat) (h : i < l.length) :
    (l.drop i).getLast? = l.getLast? := by
  induction l generalizing i with
  | nil => simp at h
  | cons a rest ih =>
    cases i with
    | zero => simp
    | succ j =>
      simp only [List.drop_succ_cons]
      rw [ih j (by simpa using h)]
      rcases rest with _ | ⟨b, rest2⟩
      · simp at h
      · simp [List.getLast?_cons_cons]

theorem head?_drop_indexOf (l : List String) (a : String) (h : a ∈ l) :
    (l.drop (l.indexOf a)).head? = some a := by
  have hlt : l.indexOf a < l.length := List.indexOf_lt_length.mpr h
  rw [List.head?_drop]
  rw [List.getElem?_eq_getElem hlt]
  congr 1
  exact List.indexOf_get hlt

/-- The slice reported at the moment of revisiting a path member is a
genuine cycle. -/
theorem drop_indexOf_isCycle (smap : List (String × Seeder γ ω ε))
    (path : List String) (name : String)
    (hch : List.Chain' (DepEdgeMap smap) path)
    (hlast : ∀ x ∈ path.getLast?, DepEdgeMap smap x name)
    (hmem : name ∈ path) :
    IsCycleMap smap (path.drop (path.indexOf name)) := by
  have hlt : path.indexOf name < path.length := List.indexOf_lt_length.mpr hmem
  refine ⟨?_, hch.drop _, ?_⟩
  · intro hc
    have := congrArg List.length hc
    simp at this
    omega
  · intro x hx y hy
    rw [getLast?_drop_of_lt path _ hlt] at hx
    rw [head?_drop_indexOf path name hmem] at hy
    obtain rfl : name = y := Option.some.inj (Option.mem_def.mp hy)
    exact hlast x hx

/-- Soundness of the DFS: whatever cycle either function reports is a
genuine cycle of the dependency relation. -/
theorem dfs_sound (smap : List (String × Seeder γ ω ε)) :
    ∀ fuel : Nat,
      (∀ visited path name c,
        List.Chain' (DepEdgeMap smap) path →
        (∀ x ∈ path.getLast?, DepEdgeMap smap x name) →
        dfsVisit smap fuel visited path name = Sum.inl c →
        IsCycleMap smap c) ∧
      (∀ (ds : List String) visited path c,
        List.Chain' (DepEdgeMap smap) path →
        (∀ d ∈ ds, ∀ x ∈ path.getLast?, DepEdgeMap smap x d) →
        dfsDeps smap fuel visited path ds = Sum.inl c →
        IsCycleMap smap c) := by
  intro fuel
  induction fuel with
  | zero =>
    constructor
    · intro visited path name c _ _ h
      simp [dfsVisit] at h
    · intro ds
      induction ds with
      | nil =>
        intro visited path c _ _ h
        simp [dfsDeps] at h
      | cons d rest ihds =>
        intro visited path c hch hd h
        simp only [dfsDeps, dfsVisit] at h
        exact ihds visited path c hch (fun x hx => hd x (by simp [hx])) h
  | succ fuel ih =>
    have hV : ∀ visited path name c,
        List.Chain' (DepEdgeMap smap) path →
        (∀ x ∈ path.getLast?, DepEdgeMap smap x name) →
        dfsVisit smap (fuel + 1) visited path name = Sum.inl c →
        IsCycleMap smap c := by
      intro visited path name c hch hlast h
      by_cases hmem : name ∈ path
      · simp only [dfsVisit, if_pos hmem] at h
        rw [← Sum.inl.inj h]
        exact drop_indexOf_isCycle smap path name hch hlast hmem
      · by_cases hv : name ∈ visited
        · simp [dfsVisit, hmem, hv] at h
        · simp only [dfsVisit, if_neg hmem, if_neg hv] at h
          refine ih.2 (depsOfMap smap name) (name :: visited) (path ++ [name]) c ?_ ?_ h
          · rw [List.chain'_append]
            refine ⟨hch, List.chain'_singleton name, ?_⟩
            intro x hx y hy
            obtain rfl : name = y := by simpa using hy
            exact hlast x hx
          · intro d hd x hx
            rw [List.getLast?_concat] at hx
            obtain rfl : name = x := Option.some.inj (Option.mem_def.mp hx)
            exact hd
    refine ⟨hV, ?_⟩
    intro ds
    induction ds with
    | nil =>
      intro visited path c _ _ h
      simp [dfsDeps] at h
    | cons d rest ihds =>
      intro visited path c hch hd h
      simp only [dfsDeps] at h
      rcases hcall : dfsVisit smap (fuel + 1) visited path d with c2 | v2
      · rw [hcall] at h
        simp only at h
        rw [← Sum.inl.inj h]
        exact hV visited path d c2 hch (fun x hx => hd d (by simp) x hx) hcall
      · rw [hcall] at h
        simp only at h
        exact ihds v2 path c hch (fun x hx => hd x (by simp [hx])) h

end DfsSound

section DfsComplete

variable {γ ω ε : Type}

theorem kRem_mono (smap : List (String × Seeder γ ω ε)) (V V2 : List String)
    (h : V ⊆ V2) : kRem smap V2 ≤ kRem smap V := by
  unfold kRem
  rw [← List.countP_eq_length_filter, ← List.countP_eq_length_filter]
  refine List.countP_mono_left ?_
  intro a _ ha
  simp only [decide_eq_true_eq] at ha ⊢
  exact fun hc => ha (h hc)

theorem length_filter_notMem_cons (keys V : List String) (name : String)
    (hk : name ∈ keys) (hv : name ∉ V) :
    (keys.filter (fun x => decide (x ∉ name :: V))).length <
      (keys.filter (fun x => decide (x ∉ V))).length := by
  induction keys with
  | nil => simp at hk
  | cons k rest ih =>
    rw [List.filter_cons, List.filter_cons]
    have hmono : (rest.filter (fun x => decide (x ∉ name :: V))).length ≤
        (rest.filter (fun x => decide (x ∉ V))).length := by
      rw [← List.countP_eq_length_filter, ← List.countP_eq_length_filter]
      refine List.countP_mono_left ?_
      intro a _ ha
      simp only [decide_eq_true_eq, List.mem_cons] at ha ⊢
      exact fun hc => ha (Or.inr hc)
    by_cases hkn : k = name
    · subst hkn
      have h1 : (decide (k ∉ k :: V)) = false := by simp
      have h2 : (decide (k ∉ V)) = true := by simpa using hv
      rw [h1, h2]
      simp only [Bool.false_eq_true, if_false, if_true, List.length_cons]
      omega
    · have hkrest : name ∈ rest := by
        rcases List.mem_cons.mp hk with h | h
        · exact absurd h.symm hkn
        · exact h
      have ihr := ih hkrest
      have hcond : (decide (k ∉ name :: V)) = (decide (k ∉ V)) := by
        by_cases h : k ∈ V
        · simp [h]
        · simp [h, hkn]
      rw [hcond]
      cases hd : decide (k ∉ V)
      · simp only [Bool.false_eq_true, if_false]
        exact ihr
      · rw [if_pos rfl, if_pos rfl]
        simp only [List.length_cons]
        omega

theorem kRem_cons_lt (smap : List (String × Seeder γ ω ε)) (V : List String)
    (name : String) (hk : name ∈ omapKeys smap) (hv : name ∉ V) :
    kRem smap (name :: V) < kRem smap V :=
  length_filter_notMem_cons (omapKeys smap) V name hk hv

theorem le_foldr_max (f : String → Nat) (l : List String) (x : String) (hx : x ∈ l) :
    f x ≤ (l.map f).foldr max 0 := by
  induction l with
  | nil => simp at hx
  | cons a rest ih =>
    rcases List.mem_cons.mp hx with rfl | hx2
    · simp only [List.map_cons, List.foldr_cons]
      exact le_max_left _ _
    · simp only [List.map_cons, List.foldr_cons]
      exact le_trans (ih hx2) (le_max_right _ _)

/-- Completeness machinery for the DFS: a run that comes back empty-handed
has explored its argument and preserved the rank certificate. -/
theorem dfs_complete (smap : List (String × Seeder γ ω ε))
    (hclosed : DepsClosed smap) :
    ∀ fuel : Nat,
      (∀ visited path name V2,
        kRem smap visited < fuel → name ∈ omapKeys smap →
        dfsVisit smap fuel visited path name = Sum.inr V2 →
        visited ⊆ V2 ∧ name ∈ V2 ∧ name ∉ path ∧
          (RankInv smap visited path → RankInv smap V2 path)) ∧
      (∀ (ds : List String) visited path V2,
        kRem smap visited < fuel → (∀ d ∈ ds, d ∈ omapKeys smap) →
        dfsDeps smap fuel visited path ds = Sum.inr V2 →
        visited ⊆ V2 ∧ (∀ d ∈ ds, d ∈ V2 ∧ d ∉ path) ∧
          (RankInv smap visited path → RankInv smap V2 path)) := by
  intro fuel
  induction fuel with
  | zero =>
    constructor
    · intro visited path name V2 hb _ _
      omega
    · intro ds visited path V2 hb _ _
      omega
  | succ fuel ih =>
    have hV : ∀ visited path name V2,
        kRem smap visited < fuel + 1 → name ∈ omapKeys smap →
        dfsVisit smap (fuel + 1) visited path name = Sum.inr V2 →
        visited ⊆ V2 ∧ name ∈ V2 ∧ name ∉ path ∧
          (RankInv smap visited path → RankInv smap V2 path) := by
      intro visited path name V2 hb hkey h
      by_cases hmem : name ∈ path
      · simp [dfsVisit, hmem] at h
      · by_cases hv : name ∈ visited
        · simp only [dfsVisit, if_neg hmem, if_pos hv] at h
          have hV2 : visited = V2 := Sum.inr.inj h
          subst hV2
          exact ⟨fun x hx => hx, hv, hmem, fun hr => hr⟩
        · simp only [dfsVisit, if_neg hmem, if_neg hv] at h
          have hdskeys : ∀ d ∈ depsOfMap smap name, d ∈ omapKeys smap := by
            intro d hd
            unfold depsOfMap at hd
            rcases hg : omapGet smap name with _ | s
            · rw [hg] at hd
              simp at hd
            · rw [hg] at hd
              exact hclosed name s hg d hd
          have hb2 : kRem smap (name :: visited) < fuel := by
            have := kRem_cons_lt smap visited name hkey hv
            omega
          obtain ⟨hsub1, hds, hrk⟩ := ih.2 (depsOfMap smap name) (name :: visited)
            (path ++ [name]) V2 hb2 hdskeys h
          refine ⟨fun x hx => hsub1 (by simp [hx]), hsub1 (by simp), hmem, ?_⟩
          rintro ⟨ρ, hρ⟩
          have step1 : RankInv smap (name :: visited) (path ++ [name]) := by
            refine ⟨ρ, ?_⟩
            intro v hv2 hvp d hd
            rcases List.mem_cons.mp hv2 with rfl | hv3
            · exact absurd (by simp : v ∈ path ++ [v]) hvp
            · have hvnp : v ∉ path := fun hc => hvp (by simp [hc])
              obtain ⟨h1, h2, h3⟩ := hρ v hv3 hvnp d hd
              refine ⟨by simp [h1], ?_, h3⟩
              have hdn : d ≠ name := fun hc => hv (hc ▸ h1)
              simp only [List.mem_append, List.mem_singleton]
              rintro (hc | hc)
              · exact h2 hc
              · exact hdn hc
          obtain ⟨ρ2, hρ2⟩ := hrk step1
          set M := (V2.map ρ2).foldr max 0 with hM
          refine ⟨fun x => if x = name then M + 1 else ρ2 x, ?_⟩
          intro v hv2 hvp d hd
          by_cases hvn : v = name
          · subst hvn
            obtain ⟨hd1, hd2⟩ := hds d hd
            have hdp : d ∉ path := fun hc => hd2 (by simp [hc])
            have hdn : d ≠ v := fun hc => hd2 (by simp [hc])
            refine ⟨hd1, hdp, ?_⟩
            have := le_foldr_max ρ2 V2 d hd1
            simp only [hdn, if_false]
            simp
            omega
          · have hvp2 : v ∉ path ++ [name] := by
              simp only [List.mem_append, List.mem_singleton]
              rintro (hc | hc)
              · exact hvp hc
              · exact hvn hc
            obtain ⟨h1, h2, h3⟩ := hρ2 v hv2 hvp2 d hd
            have hdp : d ∉ path := fun hc => h2 (by simp [hc])
            have hdn : d ≠ name := fun hc => h2 (by simp [hc])
            refine ⟨h1, hdp, ?_⟩
            simp only [hdn, hvn, if_false]
            exact h3
    refine ⟨hV, ?_⟩
    intro ds
    induction ds with
    | nil =>
      intro visited path V2 _ _ h
      simp only [dfsDeps] at h
      have hV2 : visited = V2 := Sum.inr.inj h
      subst hV2
      exact ⟨fun x hx => hx, by simp, fun hr => hr⟩
    | cons d rest ihds =>
      intro visited path V2 hb hkeys h
      simp only [dfsDeps] at h
      rcases hcall : dfsVisit smap (fuel + 1) visited path d with c2 | v2
      · rw [hcall] at h
        simp at h
      · rw [hcall] at h
        simp only at h
        obtain ⟨hsub, hdV, hdP, hrk1⟩ := hV visited path d v2 hb (hkeys d (by simp)) hcall
        have hb2 : kRem smap v2 < fuel + 1 := by
          have := kRem_mono smap visited v2 hsub
          omega
        obtain ⟨hsub2, hrest, hrk2⟩ := ihds v2 path V2 hb2
          (fun x hx => hkeys x (by simp [hx])) h
        refine ⟨fun x hx => hsub2 (hsub hx), ?_, fun hr => hrk2 (hrk1 hr)⟩
        intro x hx
        rcases List.mem_cons.mp hx with rfl | hx2
        · exact ⟨hsub2 hdV, hdP⟩
        · exact hrest x hx2

end DfsComplete

section FindCycleCorrect

variable {γ ω ε : Type}

theorem findCycleLoop_some_isCycle (smap : List (String × Seeder γ ω ε)) (fuel : Nat) :
    ∀ (rem : List (Seeder γ ω ε)) (visited c : List String),
      findCycleLoop smap fuel visited rem = some c → IsCycleMap smap c := by
  intro rem
  induction rem with
  | nil =>
    intro visited c h
    simp [findCycleLoop] at h
  | cons s rest ih =>
    intro visited c h
    simp only [findCycleLoop] at h
    rcases hcall : dfsVisit smap fuel visited [] s.name with c2 | v2
    · rw [hcall] at h
      simp only at h
      rw [← Option.some.inj h]
      exact (dfs_sound smap fuel).1 visited [] s.name c2 List.chain'_nil (by simp) hcall
    · rw [hcall] at h
      simp only at h
      exact ih v2 c h

theorem findCycleLoop_none_explored (smap : List (String × Seeder γ ω ε))
    (hclosed : DepsClosed smap) (fuel : Nat) :
    ∀ (rem : List (Seeder γ ω ε)) (visited : List String),
      findCycleLoop smap fuel visited rem = none →
      kRem smap visited < fuel →
      (∀ s ∈ rem, s.name ∈ omapKeys smap) →
      RankInv smap visited [] →
      ∃ V2, visited ⊆ V2 ∧ (∀ s ∈ rem, s.name ∈ V2) ∧ RankInv smap V2 [] := by
  intro rem
  induction rem with
  | nil =>
    intro visited _ _ _ hrk
    exact ⟨visited, fun x hx => hx, by simp, hrk⟩
  | cons s rest ih =>
    intro visited h hb hkeys hrk
    simp only [findCycleLoop] at h
    rcases hcall : dfsVisit smap fuel visited [] s.name with c2 | v2
    · rw [hcall] at h
      simp at h
    · rw [hcall] at h
      simp only at h
      obtain ⟨hsub, hmem, _, hrk2⟩ :=
        (dfs_complete smap hclosed fuel).1 visited [] s.name v2 hb (hkeys s (by simp)) hcall
      have hb2 : kRem smap v2 < fuel := by
        have := kRem_mono smap visited v2 hsub
        omega
      obtain ⟨V2, hsub2, hrem, hrk3⟩ :=
        ih v2 h hb2 (fun t ht => hkeys t (by simp [ht])) (hrk2 hrk)
      refine ⟨V2, fun x hx => hsub2 (hsub hx), ?_, hrk3⟩
      intro t ht
      rcases List.mem_cons.mp ht with rfl | ht2
      · exact hsub2 hmem
      · exact hrem t ht2

theorem depsOfMap_buildSeederMap (seeders : List (Seeder γ ω ε))
    (hn : (seeders.map (fun s => s.name)).Nodup) (u : String) :
    depsOfMap (buildSeederMap seeders) u = depsOf seeders u := by
  unfold depsOfMap depsOf
  rw [buildSeederMap_get_eq_find? seeders hn u]

theorem depEdge_of_depEdgeMap (seeders : List (Seeder γ ω ε)) (u v : String)
    (h : DepEdgeMap (buildSeederMap seeders) u v) : DepEdge seeders u v := by
  unfold DepEdgeMap depsOfMap at h
  rcases hg : omapGet (buildSeederMap seeders) u with _ | s
  · rw [hg] at h
    simp at h
  · rw [hg] at h
    rcases buildSeederMap_get_prop seeders u s hg with ⟨hmem, hname⟩
    exact ⟨s, hmem, hname, h⟩

theorem isDepCycle_of_isCycleMap (seeders : List (Seeder γ ω ε)) (c : List String)
    (h : IsCycleMap (buildSeederMap seeders) c) : IsDepCycle seeders c := by
  obtain ⟨hne, hch, hwrap⟩ := h
  cases c with
  | nil => exact hne rfl
  | cons a rest =>
    refine ⟨hch.imp (fun x y => depEdge_of_depEdgeMap seeders x y), ?_⟩
    refine depEdge_of_depEdgeMap seeders _ _ (hwrap _ ?_ a ?_)
    · rw [List.getLast?_eq_getLast (a :: rest) (by simp)]
      rfl
    · rfl

theorem depsClosed_buildSeederMap (seeders : List (Seeder γ ω ε))
    (hdeps : ∀ s ∈ seeders, ∀ d ∈ s.dependsOn, d ∈ seederNames seeders) :
    DepsClosed (buildSeederMap seeders) := by
  intro n s hg d hd
  rcases buildSeederMap_get_prop seeders n s hg with ⟨hmem, _⟩
  rw [mem_omapKeys_buildSeederMap]
  exact hdeps s hmem d hd

/-- The cycle reported by `findCycle` on the unresolved units is a genuine
dependency cycle of the registry. -/
theorem findCycle_genuine (seeders : List (Seeder γ ω ε))
    (hn : (seeders.map (fun s => s.name)).Nodup)
    (hdeps : ∀ s ∈ seeders, ∀ d ∈ s.dependsOn, d ∈ seederNames seeders)
    (hcyc : ∃ u, Relation.TransGen (DepEdge seeders) u u) :
    IsDepCycle seeders
      (findCycle (seeders.filter (fun s => ! (resolveOrder seeders).contains s.name))
        (buildSeederMap seeders)) := by
  have hclosed := depsClosed_buildSeederMap seeders hdeps
  unfold findCycle
  rcases hloop : findCycleLoop (buildSeederMap seeders)
      ((buildSeederMap seeders).length + 1) []
      (seeders.filter (fun s => ! (resolveOrder seeders).contains s.name)) with _ | c
  · exfalso
    have hkeysrem : ∀ s ∈ seeders.filter
        (fun s => ! (resolveOrder seeders).contains s.name),
        s.name ∈ omapKeys (buildSeederMap seeders) := by
      intro s hs
      rw [mem_omapKeys_buildSeederMap]
      exact List.mem_map_of_mem _ (List.mem_of_mem_filter hs)
    have hb : kRem (buildSeederMap seeders) [] < (buildSeederMap seeders).length + 1 := by
      unfold kRem
      have h1 : ((omapKeys (buildSeederMap seeders)).filter
          (fun x => decide (x ∉ ([] : List String)))).length ≤
          (omapKeys (buildSeederMap seeders)).length := by
        rw [← List.countP_eq_length_filter]
        exact List.countP_le_length _
      have h2 : (omapKeys (buildSeederMap seeders)).length =
          (buildSeederMap seeders).length := by
        simp [omapKeys]
      omega
    have hrk0 : RankInv (buildSeederMap seeders) [] [] :=
      ⟨fun _ => 0, by simp⟩
    obtain ⟨V2, _, hrem, ρ, hρ⟩ :=
      findCycleLoop_none_explored (buildSeederMap seeders) hclosed _ _ [] hloop hb
        hkeysrem hrk0
    obtain ⟨deg2, hinv⟩ := resolveOrder_inv seeders hn
    obtain ⟨n₀, hn₀, hn₀r⟩ := kahn_final_incomplete_of_cycle seeders hn hcyc hinv
    have hmemV2 : ∀ u, u ∈ seederNames seeders → u ∉ resolveOrder seeders → u ∈ V2 := by
      intro u hu hur
      rcases List.mem_map.mp hu with ⟨s, hs, hname⟩
      have : s ∈ seeders.filter (fun s => ! (resolveOrder seeders).contains s.name) := by
        rw [List.mem_filter]
        refine ⟨hs, ?_⟩
        rw [hname]
        simpa using hur
      rw [← hname]
      exact hrem s this
    have hdescent : ∀ k u, u ∈ seederNames seeders → u ∉ resolveOrder seeders →
        ρ u = k → False := by
      intro k
      induction k using Nat.strong_induction_on with
      | _ k ihk =>
        intro u hu hur hk
        obtain ⟨d, ⟨hd1, hd2⟩, hedge⟩ :=
          kahn_final_closed seeders hdeps hinv u hu hur
        have hdmem : d ∈ depsOfMap (buildSeederMap seeders) u := by
          rw [depsOfMap_buildSeederMap seeders hn u]
          exact ((depEdge_iff_depsOf seeders hn u d).mp hedge).2
        obtain ⟨_, _, hlt⟩ := hρ u (hmemV2 u hu hur) (by simp) d hdmem
        exact ihk (ρ d) (by omega) d hd1 hd2 rfl
    exact hdescent (ρ n₀) n₀ hn₀ hn₀r rfl
  · exact isDepCycle_of_isCycleMap seeders c
      (findCycleLoop_some_isCycle (buildSeederMap seeders) _ _ [] c hloop)

end FindCycleCorrect

/-! ## Execution-engine lemmas -/

section EngineLemmas

variable {γ ω ε : Type}

theorem runLoop_nil (smap : List (String × Seeder γ ω ε)) (cont : Bool)
    (timer : String → Nat) (ctx : γ) (outs : List (String × ω)) (failed : List String) :
    runLoop smap cont timer ctx [] outs failed = ([], []) := rfl

theorem runLoop_cons_empty (smap : List (String × Seeder γ ω ε)) (cont : Bool)
    (timer : String → Nat) (ctx : γ) (rest : List String)
    (outs : List (String × ω)) (failed : List String) :
    runLoop smap cont timer ctx ("" :: rest) outs failed =
      ((⟨"", SeederStatus.pending, none, none, none⟩ : SeederResult ω ε) ::
          (runLoop smap cont timer ctx rest outs failed).1,
        (runLoop smap cont timer ctx rest outs failed).2) := by
  conv_lhs => rw [runLoop.eq_def]
  dsimp only
  rw [if_pos rfl]

theorem runLoop_cons_missing (smap : List (String × Seeder γ ω ε)) (cont : Bool)
    (timer : String → Nat) (ctx : γ) (n : String) (rest : List String)
    (outs : List (String × ω)) (failed : List String)
    (h : omapGet smap n = none) :
    runLoop smap cont timer ctx (n :: rest) outs failed =
      ((⟨n, SeederStatus.pending, none, none, none⟩ : SeederResult ω ε) ::
          (runLoop smap cont timer ctx rest outs failed).1,
        (runLoop smap cont timer ctx rest outs failed).2) := by
  by_cases hne : n = ""
  · subst hne
    exact runLoop_cons_empty smap cont timer ctx rest outs failed
  · conv_lhs => rw [runLoop.eq_def]
    dsimp only
    rw [if_neg hne, h]

theorem runLoop_cons_skip (smap : List (String × Seeder γ ω ε)) (cont : Bool)
    (timer : String → Nat) (ctx : γ) (n : String) (rest : List String)
    (outs : List (String × ω)) (failed : List String) (seeder : Seeder γ ω ε)
    (hne : n ≠ "") (h : omapGet smap n = some seeder)
    (hskip : cont ∧ seeder.dependsOn.any (fun d => failed.contains d)) :
    runLoop smap cont timer ctx (n :: rest) outs failed =
      ((⟨n, SeederStatus.skipped, none, none, none⟩ : SeederResult ω ε) ::
          (runLoop smap cont timer ctx rest outs (n :: failed)).1,
        (runLoop smap cont timer ctx rest outs (n :: failed)).2) := by
  conv_lhs => rw [runLoop.eq_def]
  dsimp only
  rw [if_neg hne, h]
  dsimp only
  rw [if_pos hskip]

theorem runLoop_cons_ok (smap : List (String × Seeder γ ω ε)) (cont : Bool)
    (timer : String → Nat) (ctx : γ) (n : String) (rest : List String)
    (outs : List (String × ω)) (failed : List String) (seeder : Seeder γ ω ε)
    (out : ω) (hne : n ≠ "") (h : omapGet smap n = some seeder)
    (hnskip : ¬ (cont ∧ seeder.dependsOn.any (fun d => failed.contains d)))
    (hrun : seeder.run ctx (seeder.dependsOn.map (fun d => (d, omapGet outs d))) =
      Except.ok out) :
    runLoop smap cont timer ctx (n :: rest) outs failed =
      ((⟨n, SeederStatus.completed, some (timer n), some out, none⟩ : SeederResult ω ε) ::
          (runLoop smap cont timer ctx rest (omapSet outs n out) failed).1,
        RunEvent.workInvoked n ::
          (runLoop smap cont timer ctx rest (omapSet outs n out) failed).2) := by
  conv_lhs => rw [runLoop.eq_def]
  dsimp only
  rw [if_neg hne, h]
  dsimp only
  rw [if_neg hnskip, hrun]

theorem runLoop_cons_err_cont (smap : List (String × Seeder γ ω ε))
    (timer : String → Nat) (ctx : γ) (n : String) (rest : List String)
    (outs : List (String × ω)) (failed : List String) (seeder : Seeder γ ω ε)
    (er : ε) (hne : n ≠ "") (h : omapGet smap n = some seeder)
    (hnskip : ¬ (True ∧ seeder.dependsOn.any (fun d => failed.contains d)))
    (hrun : seeder.run ctx (seeder.dependsOn.map (fun d => (d, omapGet outs d))) =
      Except.error er) :
    runLoop smap true timer ctx (n :: rest) outs failed =
      ((⟨n, SeederStatus.failed, some (timer n), none, some er⟩ : SeederResult ω ε) ::
          (runLoop smap true timer ctx rest outs (n :: failed)).1,
        RunEvent.workInvoked n ::
          (runLoop smap true timer ctx rest outs (n :: failed)).2) := by
  conv_lhs => rw [runLoop.eq_def]
  dsimp only
  rw [if_neg hne, h]
  dsimp only
  rw [if_neg (by simpa using hnskip), hrun]
  dsimp only
  rw [if_pos rfl]

theorem runLoop_cons_err_stop (smap : List (String × Seeder γ ω ε))
    (timer : String → Nat) (ctx : γ) (n : String) (rest : List String)
    (outs : List (String × ω)) (failed : List String) (seeder : Seeder γ ω ε)
    (er : ε) (hne : n ≠ "") (h : omapGet smap n = some seeder)
    (hrun : seeder.run ctx (seeder.dependsOn.map (fun d => (d, omapGet outs d))) =
      Except.error er) :
    runLoop smap false timer ctx (n :: rest) outs failed =
      ((⟨n, SeederStatus.failed, some (timer n), none, some er⟩ : SeederResult ω ε) ::
          rest.map (fun m => ⟨m, SeederStatus.pending, none, none, none⟩),
        [RunEvent.workInvoked n]) := by
  conv_lhs => rw [runLoop.eq_def]
  dsimp only
  rw [if_neg hne, h]
  dsimp only
  rw [if_neg (by simp), hrun]
  dsimp only
  rw [if_neg (by simp)]

/-- Case analysis principle over one step of the loop. -/
theorem runLoop_cases (smap : List (String × Seeder γ ω ε)) (cont : Bool)
    (timer : String → Nat) (ctx : γ) (n : String) (rest : List String)
    (outs : List (String × ω)) (failed : List String)
    (P : List (SeederResult ω ε) × List RunEvent → Prop)
    (hempty : n = "" →
      P (⟨n, SeederStatus.pending, none, none, none⟩ ::
          (runLoop smap cont timer ctx rest outs failed).1,
        (runLoop smap cont timer ctx rest outs failed).2))
    (hmissing : omapGet smap n = none →
      P (⟨n, SeederStatus.pending, none, none, none⟩ ::
          (runLoop smap cont timer ctx rest outs failed).1,
        (runLoop smap cont timer ctx rest outs failed).2))
    (hskip : ∀ seeder, omapGet smap n = some seeder →
      (cont ∧ seeder.dependsOn.any (fun d => failed.contains d)) →
      P (⟨n, SeederStatus.skipped, none, none, none⟩ ::
          (runLoop smap cont timer ctx rest outs (n :: failed)).1,
        (runLoop smap cont timer ctx rest outs (n :: failed)).2))
    (hok : ∀ seeder out, omapGet smap n = some seeder →
      ¬ (cont ∧ seeder.dependsOn.any (fun d => failed.contains d)) →
      seeder.run ctx (seeder.dependsOn.map (fun d => (d, omapGet outs d))) =
        Except.ok out →
      P (⟨n, SeederStatus.completed, some (timer n), some out, none⟩ ::
          (runLoop smap cont timer ctx rest (omapSet outs n out) failed).1,
        RunEvent.workInvoked n ::
          (runLoop smap cont timer ctx rest (omapSet outs n out) failed).2))
    (herrc : ∀ seeder er, cont = true → omapGet smap n = some seeder →
      ¬ (cont ∧ seeder.dependsOn.any (fun d => failed.contains d)) →
      seeder.run ctx (seeder.dependsOn.map (fun d => (d, omapGet outs d))) =
        Except.error er →
      P (⟨n, SeederStatus.failed, some (timer n), none, some er⟩ ::
          (runLoop smap cont timer ctx rest outs (n :: failed)).1,
        RunEvent.workInvoked n ::
          (runLoop smap cont timer ctx rest outs (n :: failed)).2))
    (herrs : ∀ seeder er, cont = false → omapGet smap n = some seeder →
      seeder.run ctx (seeder.dependsOn.map (fun d => (d, omapGet outs d))) =
        Except.error er →
      P (⟨n, SeederStatus.failed, some (timer n), none, some er⟩ ::
          rest.map (fun m => ⟨m, SeederStatus.pending, none, none, none⟩),
        [RunEvent.workInvoked n])) :
    P (runLoop smap cont timer ctx (n :: rest) outs failed) := by
  by_cases hem : n = ""
  · subst hem
    rw [runLoop_cons_empty smap cont timer ctx rest outs failed]
    exact hempty rfl
  · rcases hget : omapGet smap n with _ | seeder
    · rw [runLoop_cons_missing smap cont timer ctx n rest outs failed hget]
      exact hmissing hget
    · by_cases hsk : cont ∧ seeder.dependsOn.any (fun d => failed.contains d)
      · rw [runLoop_cons_skip smap cont timer ctx n rest outs failed seeder hem hget hsk]
        exact hskip seeder hget hsk
      · rcases hrun : seeder.run ctx
            (seeder.dependsOn.map (fun d => (d, omapGet outs d))) with er | out
        · cases cont with
          | true =>
            rw [runLoop_cons_err_cont smap timer ctx n rest outs failed seeder er hem hget
              (by simpa using hsk) hrun]
            exact herrc seeder er rfl hget hsk hrun
          | false =>
            rw [runLoop_cons_err_stop smap timer ctx n rest outs failed seeder er hem
              hget hrun]
            exact herrs seeder er rfl hget hrun
        · rw [runLoop_cons_ok smap cont timer ctx n rest outs failed seeder out hem hget
            hsk hrun]
          exact hok seeder out hget hsk hrun

theorem runLoop_names (smap : List (String × Seeder γ ω ε)) (cont : Bool)
    (timer : String → Nat) (ctx : γ) :
    ∀ (names : List String) (outs : List (String × ω)) (failed : List String),
      (runLoop smap cont timer ctx names outs failed).1.map (fun e => e.name) = names := by
  intro names
  induction names with
  | nil => intro outs failed; rfl
  | cons n rest ih =>
    intro outs failed
    refine runLoop_cases smap cont timer ctx n rest outs failed
      (fun r => r.1.map (fun e => e.name) = n :: rest) ?_ ?_ ?_ ?_ ?_ ?_
    · intro _
      simp [ih]
    · intro _
      simp [ih]
    · intro seeder _ _
      simp [ih]
    · intro seeder out _ _ _
      simp [ih]
    · intro seeder er _ _ _ _
      simp [ih]
    · intro seeder er _ _ _
      simp only [List.map_cons, List.map_map]
      simp [Function.comp_def]

theorem runLoop_fieldInv (smap : List (String × Seeder γ ω ε)) (cont : Bool)
    (timer : String → Nat) (ctx : γ) :
    ∀ (names : List String) (outs : List (String × ω)) (failed : List String),
      ∀ e ∈ (runLoop smap cont timer ctx names outs failed).1, fieldInv e := by
  intro names
  induction names with
  | nil => intro outs failed e he; simp [runLoop_nil] at he
  | cons n rest ih =>
    intro outs failed
    refine runLoop_cases smap cont timer ctx n rest outs failed
      (fun r => ∀ e ∈ r.1, fieldInv e) ?_ ?_ ?_ ?_ ?_ ?_
    · intro _ e he
      rcases List.mem_cons.mp he with rfl | he2
      · exact ⟨by simp, by simp, by simp⟩
      · exact ih outs failed e he2
    · intro _ e he
      rcases List.mem_cons.mp he with rfl | he2
      · exact ⟨by simp, by simp, by simp⟩
      · exact ih outs failed e he2
    · intro seeder _ _ e he
      rcases List.mem_cons.mp he with rfl | he2
      · exact ⟨by simp, by simp, by simp⟩
      · exact ih outs (n :: failed) e he2
    · intro seeder out _ _ _ e he
      rcases List.mem_cons.mp he with rfl | he2
      · exact ⟨by simp, by simp, by simp⟩
      · exact ih (omapSet outs n out) failed e he2
    · intro seeder er _ _ _ _ e he
      rcases List.mem_cons.mp he with rfl | he2
      · exact ⟨by simp, by simp, by simp⟩
      · exact ih outs (n :: failed) e he2
    · intro seeder er _ _ _ e he
      rcases List.mem_cons.mp he with rfl | he2
      · exact ⟨by simp, by simp, by simp⟩
      · rcases List.mem_map.mp he2 with ⟨x, _, rfl⟩
        exact ⟨by simp, by simp, by simp⟩

theorem runLoop_events_sub (smap : List (String × Seeder γ ω ε)) (cont : Bool)
    (timer : String → Nat) (ctx : γ) :
    ∀ (names : List String) (outs : List (String × ω)) (failed : List String),
      ∀ e ∈ (runLoop smap cont timer ctx names outs failed).2,
        ∃ n ∈ names, e = RunEvent.workInvoked n := by
  intro names
  induction names with
  | nil => intro outs failed e he; simp [runLoop_nil] at he
  | cons n rest ih =>
    intro outs failed
    refine runLoop_cases smap cont timer ctx n rest outs failed
      (fun r => ∀ e ∈ r.2, ∃ m ∈ n :: rest, e = RunEvent.workInvoked m) ?_ ?_ ?_ ?_ ?_ ?_
    · intro _ e he
      rcases ih outs failed e he with ⟨m, hm, hme⟩
      exact ⟨m, by simp [hm], hme⟩
    · intro _ e he
      rcases ih outs failed e he with ⟨m, hm, hme⟩
      exact ⟨m, by simp [hm], hme⟩
    · intro seeder _ _ e he
      rcases ih outs (n :: failed) e he with ⟨m, hm, hme⟩
      exact ⟨m, by simp [hm], hme⟩
    · intro seeder out _ _ _ e he
      rcases List.mem_cons.mp he with rfl | he2
      · exact ⟨n, by simp, rfl⟩
      · rcases ih (omapSet outs n out) failed e he2 with ⟨m, hm, hme⟩
        exact ⟨m, by simp [hm], hme⟩
    · intro seeder er _ _ _ _ e he
      rcases List.mem_cons.mp he with rfl | he2
      · exact ⟨n, by simp, rfl⟩
      · rcases ih outs (n :: failed) e he2 with ⟨m, hm, hme⟩
        exact ⟨m, by simp [hm], hme⟩
    · intro seeder er _ _ _ e he
      rcases List.mem_singleton.mp he with rfl
      exact ⟨n, by simp, rfl⟩

theorem runLoop_not_invoked (smap : List (String × Seeder γ ω ε)) (cont : Bool)
    (timer : String → Nat) (ctx : γ) :
    ∀ (names : List String) (outs : List (String × ω)) (failed : List String),
      names.Nodup →
      ∀ e ∈ (runLoop smap cont timer ctx names outs failed).1,
        (e.status = SeederStatus.pending ∨ e.status = SeederStatus.skipped) →
        RunEvent.workInvoked e.name ∉ (runLoop smap cont timer ctx names outs failed).2 := by
  intro names
  induction names with
  | nil => intro outs failed _ e he; simp [runLoop_nil] at he
  | cons n rest ih =>
    intro outs failed hnd
    have hnr : n ∉ rest := (List.nodup_cons.mp hnd).1
    have hrest : rest.Nodup := (List.nodup_cons.mp hnd).2
    have hnotinvoked : ∀ (outs2 : List (String × ω)) (failed2 : List String),
        RunEvent.workInvoked n ∉ (runLoop smap cont timer ctx rest outs2 failed2).2 := by
      intro outs2 failed2 hc
      rcases runLoop_events_sub smap cont timer ctx rest outs2 failed2 _ hc with ⟨m, hm, hme⟩
      have : n = m := by
        injection hme
      exact hnr (this ▸ hm)
    have hname_ne : ∀ (outs2 : List (String × ω)) (failed2 : List String),
        ∀ e ∈ (runLoop smap cont timer ctx rest outs2 failed2).1, e.name ≠ n := by
      intro outs2 failed2 e he hc
      have : e.name ∈ (runLoop smap cont timer ctx rest outs2 failed2).1.map
          (fun x => x.name) := List.mem_map_of_mem _ he
      rw [runLoop_names] at this
      exact hnr (hc ▸ this)
    refine runLoop_cases smap cont timer ctx n rest outs failed
      (fun r => ∀ e ∈ r.1,
        (e.status = SeederStatus.pending ∨ e.status = SeederStatus.skipped) →
        RunEvent.workInvoked e.name ∉ r.2) ?_ ?_ ?_ ?_ ?_ ?_
    · intro _ e he hst
      rcases List.mem_cons.mp he with rfl | he2
      · exact hnotinvoked outs failed
      · exact ih outs failed hrest e he2 hst
    · intro _ e he hst
      rcases List.mem_cons.mp he with rfl | he2
      · exact hnotinvoked outs failed
      · exact ih outs failed hrest e he2 hst
    · intro seeder _ _ e he hst
      rcases List.mem_cons.mp he with rfl | he2
      · exact hnotinvoked outs (n :: failed)
      · exact ih outs (n :: failed) hrest e he2 hst
    · intro seeder out _ _ _ e he hst
      rcases List.mem_cons.mp he with rfl | he2
      · rcases hst with h | h <;> simp at h
      · intro hc
        rcases List.mem_cons.mp hc with hc1 | hc2
        · exact hname_ne (omapSet outs n out) failed e he2 (by injection hc1)
        · exact ih (omapSet outs n out) failed hrest e he2 hst hc2
    · intro seeder er _ _ _ _ e he hst
      rcases List.mem_cons.mp he with rfl | he2
      · rcases hst with h | h <;> simp at h
      · intro hc
        rcases List.mem_cons.mp hc with hc1 | hc2
        · exact hname_ne outs (n :: failed) e he2 (by injection hc1)
        · exact ih outs (n :: failed) hrest e he2 hst hc2
    · intro seeder er _ _ _ e he hst
      rcases List.mem_cons.mp he with rfl | he2
      · rcases hst with h | h <;> simp at h
      · intro hc
        rcases List.mem_singleton.mp hc with hc1
        rcases List.mem_map.mp he2 with ⟨m, hm, rfl⟩
        simp only at hc1
        have : m = n := by injection hc1
        exact hnr (this ▸ hm)

theorem afterFailedPending_cons_of_ne {ω ε : Type} (e : SeederResult ω ε)
    (l : List (SeederResult ω ε)) (he : e.status ≠ SeederStatus.failed)
    (hl : afterFailedPending l) : afterFailedPending (e :: l) := by
  intro i j hi hj hij hfail
  cases i with
  | zero => exact absurd hfail he
  | succ i2 =>
    cases j with
    | zero => omega
    | succ j2 =>
      exact hl i2 j2 (by simpa using hi) (by simpa using hj) (by omega) hfail

theorem afterFailedPending_cons_allPending {ω ε : Type} (e : SeederResult ω ε)
    (l : List (SeederResult ω ε))
    (hl : ∀ x ∈ l, x.status = SeederStatus.pending) : afterFailedPending (e :: l) := by
  intro i j hi hj hij hfail
  cases j with
  | zero => omega
  | succ j2 =>
    exact hl _ (List.get_mem l j2 (by simpa using hj))

theorem runLoop_false_afterFailed (smap : List (String × Seeder γ ω ε))
    (timer : String → Nat) (ctx : γ) :
    ∀ (names : List String) (outs : List (String × ω)) (failed : List String),
      afterFailedPending (runLoop smap false timer ctx names outs failed).1 := by
  intro names
  induction names with
  | nil =>
    intro outs failed
    intro i j hi hj hij hfail
    simp [runLoop_nil] at hi
  | cons n rest ih =>
    intro outs failed
    refine runLoop_cases smap false timer ctx n rest outs failed
      (fun r => afterFailedPending r.1) ?_ ?_ ?_ ?_ ?_ ?_
    · intro _
      exact afterFailedPending_cons_of_ne _ _ (by simp) (ih outs failed)
    · intro _
      exact afterFailedPending_cons_of_ne _ _ (by simp) (ih outs failed)
    · intro seeder _ hsk
      simp at hsk
    · intro seeder out _ _ _
      exact afterFailedPending_cons_of_ne _ _ (by simp) (ih (omapSet outs n out) failed)
    · intro seeder er hc _ _ _
      simp at hc
    · intro seeder er _ _ _
      refine afterFailedPending_cons_allPending _ _ ?_
      intro x hx
      rcases List.mem_map.mp hx with ⟨m, _, rfl⟩
      rfl

end EngineLemmas

section EngineTrue

variable {γ ω ε : Type}

theorem skipCond_cons_bad (smap : List (String × Seeder γ ω ε)) (failed : List String)
    (processed : List (SeederResult ω ε)) (e : SeederResult ω ε) (name : String)
    (he : (e.status == SeederStatus.skipped || e.status == SeederStatus.failed) = true) :
    skipCond smap failed (e :: processed) name ↔
      skipCond smap (e.name :: failed) processed name := by
  unfold skipCond
  constructor
  · rintro ⟨d, hd, hc⟩
    refine ⟨d, hd, ?_⟩
    rcases hc with hc | hc
    · exact Or.inl (by simp [hc])
    · rw [List.filter_cons, if_pos he, List.map_cons] at hc
      rcases List.mem_cons.mp hc with hc2 | hc2
      · exact Or.inl (by simp [hc2])
      · exact Or.inr hc2
  · rintro ⟨d, hd, hc⟩
    refine ⟨d, hd, ?_⟩
    rw [List.filter_cons, if_pos he, List.map_cons]
    rcases hc with hc | hc
    · rcases List.mem_cons.mp hc with hc2 | hc2
      · exact Or.inr (List.mem_cons.mpr (Or.inl hc2))
      · exact Or.inl hc2
    · exact Or.inr (List.mem_cons.mpr (Or.inr hc))

theorem skipCond_cons_good (smap : List (String × Seeder γ ω ε)) (failed : List String)
    (processed : List (SeederResult ω ε)) (e : SeederResult ω ε) (name : String)
    (he : (e.status == SeederStatus.skipped || e.status == SeederStatus.failed) = false) :
    skipCond smap failed (e :: processed) name ↔ skipCond smap failed processed name := by
  unfold skipCond
  rw [List.filter_cons, if_neg (by simp [he])]

/-- Characterization of the continue-on-failure run over nonempty names:
an entry is `skipped` exactly when the skip condition over the entries
before it holds, and a non-skipped entry had its work invoked and ended
`completed` or `failed`.  The nonemptiness hypothesis is essential: the
falsy-name guard leaves an empty-named unit `pending` without invoking
it. -/
theorem runLoop_true_char (smap : List (String × Seeder γ ω ε))
    (timer : String → Nat) (ctx : γ) :
    ∀ (names : List String) (outs : List (String × ω)) (failed : List String),
      (∀ n ∈ names, n ≠ "") →
      (∀ n ∈ names, (omapGet smap n).isSome) →
      ∀ j (hj : j < (runLoop smap true timer ctx names outs failed).1.length),
        (((runLoop smap true timer ctx names outs failed).1.get ⟨j, hj⟩).status =
            SeederStatus.skipped ↔
          skipCond smap failed
            ((runLoop smap true timer ctx names outs failed).1.take j)
            (((runLoop smap true timer ctx names outs failed).1.get ⟨j, hj⟩).name)) ∧
        (((runLoop smap true timer ctx names outs failed).1.get ⟨j, hj⟩).status ≠
            SeederStatus.skipped →
          RunEvent.workInvoked
              (((runLoop smap true timer ctx names outs failed).1.get ⟨j, hj⟩).name) ∈
            (runLoop smap true timer ctx names outs failed).2 ∧
          (((runLoop smap true timer ctx names outs failed).1.get ⟨j, hj⟩).status =
              SeederStatus.completed ∨
            ((runLoop smap true timer ctx names outs failed).1.get ⟨j, hj⟩).status =
              SeederStatus.failed)) := by
  intro names
  induction names with
  | nil =>
    intro outs failed _ _ j hj
    simp [runLoop_nil] at hj
  | cons n rest ih =>
    intro outs failed hnonempty hsome
    have hnonempty2 : ∀ m ∈ rest, m ≠ "" :=
      fun m hm => hnonempty m (by simp [hm])
    have hsome2 : ∀ m ∈ rest, (omapGet smap m).isSome :=
      fun m hm => hsome m (by simp [hm])
    refine runLoop_cases smap true timer ctx n rest outs failed
      (fun r => ∀ j (hj : j < r.1.length),
        ((r.1.get ⟨j, hj⟩).status = SeederStatus.skipped ↔
          skipCond smap failed (r.1.take j) ((r.1.get ⟨j, hj⟩).name)) ∧
        ((r.1.get ⟨j, hj⟩).status ≠ SeederStatus.skipped →
          RunEvent.workInvoked ((r.1.get ⟨j, hj⟩).name) ∈ r.2 ∧
          ((r.1.get ⟨j, hj⟩).status = SeederStatus.completed ∨
            (r.1.get ⟨j, hj⟩).status = SeederStatus.failed))) ?_ ?_ ?_ ?_ ?_ ?_
    · intro hem
      exact absurd hem (hnonempty n (by simp))
    · intro hget
      have := hsome n (by simp)
      rw [hget] at this
      simp at this
    · intro seeder hget hsk j hj
      have hdeps : depsOfMap smap n = seeder.dependsOn := by
        unfold depsOfMap
        rw [hget]
      cases j with
      | zero =>
        constructor
        · constructor
          · intro _
            rcases List.any_eq_true.mp hsk.2 with ⟨d, hd, hdc⟩
            refine ⟨d, ?_, Or.inl ?_⟩
            · show d ∈ depsOfMap smap n
              rw [hdeps]
              exact hd
            · simpa using hdc
          · intro _
            rfl
        · intro hc
          exact absurd rfl hc
      | succ j2 =>
        have hj2 : j2 < (runLoop smap true timer ctx rest outs (n :: failed)).1.length := by
          simpa using hj
        obtain ⟨ih1, ih2⟩ := ih outs (n :: failed) hnonempty2 hsome2 j2 hj2
        constructor
        · show (((runLoop smap true timer ctx rest outs (n :: failed)).1.get
              ⟨j2, hj2⟩).status = SeederStatus.skipped) ↔ _
          rw [ih1]
          rw [List.take_succ_cons]
          exact (skipCond_cons_bad smap failed _
            (⟨n, SeederStatus.skipped, none, none, none⟩ : SeederResult ω ε) _
            rfl).symm
        · intro hne
          exact ih2 hne
    · intro seeder out hget hnsk hrun j hj
      have hdeps : depsOfMap smap n = seeder.dependsOn := by
        unfold depsOfMap
        rw [hget]
      cases j with
      | zero =>
        constructor
        · constructor
          · intro hc
            exact SeederStatus.noConfusion hc
          · rintro ⟨d, hd, hc⟩
            rcases hc with hc | hc
            · refine absurd ⟨rfl, List.any_eq_true.mpr ⟨d, ?_, by simpa using hc⟩⟩ hnsk
              rw [← hdeps]
              exact hd
            · simp at hc
        · intro _
          exact ⟨by simp, Or.inl rfl⟩
      | succ j2 =>
        have hj2 : j2 < (runLoop smap true timer ctx rest (omapSet outs n out) failed).1.length := by
          simpa using hj
        obtain ⟨ih1, ih2⟩ := ih (omapSet outs n out) failed hnonempty2 hsome2 j2 hj2
        constructor
        · show (((runLoop smap true timer ctx rest (omapSet outs n out) failed).1.get
              ⟨j2, hj2⟩).status = SeederStatus.skipped) ↔ _
          rw [ih1]
          rw [List.take_succ_cons]
          exact (skipCond_cons_good smap failed _
            (⟨n, SeederStatus.completed, some (timer n), some out, none⟩ : SeederResult ω ε) _
            rfl).symm
        · intro hne
          obtain ⟨hev, hst⟩ := ih2 hne
          exact ⟨List.mem_cons.mpr (Or.inr hev), hst⟩
    · intro seeder er _ hget hnsk hrun j hj
      have hdeps : depsOfMap smap n = seeder.dependsOn := by
        unfold depsOfMap
        rw [hget]
      cases j with
      | zero =>
        constructor
        · constructor
          · intro hc
            exact SeederStatus.noConfusion hc
          · rintro ⟨d, hd, hc⟩
            rcases hc with hc | hc
            · refine absurd ⟨rfl, List.any_eq_true.mpr ⟨d, ?_, by simpa using hc⟩⟩ hnsk
              rw [← hdeps]
              exact hd
            · simp at hc
        · intro _
          exact ⟨by simp, Or.inr rfl⟩
      | succ j2 =>
        have hj2 : j2 < (runLoop smap true timer ctx rest outs (n :: failed)).1.length := by
          simpa using hj
        obtain ⟨ih1, ih2⟩ := ih outs (n :: failed) hnonempty2 hsome2 j2 hj2
        constructor
        · show (((runLoop smap true timer ctx rest outs (n :: failed)).1.get
              ⟨j2, hj2⟩).status = SeederStatus.skipped) ↔ _
          rw [ih1]
          rw [List.take_succ_cons]
          exact (skipCond_cons_bad smap failed _
            (⟨n, SeederStatus.failed, some (timer n), none, some er⟩ : SeederResult ω ε) _
            rfl).symm
        · intro hne
          obtain ⟨hev, hst⟩ := ih2 hne
          exact ⟨List.mem_cons.mpr (Or.inr hev), hst⟩
    · intro seeder er hc _ _
      simp at hc

end EngineTrue

/-! ## Runner-level lemmas -/

section RunnerLemmas

variable {γ ω ε : Type}

theorem runLoop_invoked (smap : List (String × Seeder γ ω ε)) (cont : Bool)
    (timer : String → Nat) (ctx : γ) :
    ∀ (names : List String) (outs : List (String × ω)) (failed : List String),
      ∀ e ∈ (runLoop smap cont timer ctx names outs failed).1,
        (e.status = SeederStatus.completed ∨ e.status = SeederStatus.failed) →
        RunEvent.workInvoked e.name ∈ (runLoop smap cont timer ctx names outs failed).2 := by
  intro names
  induction names with
  | nil => intro outs failed e he; simp [runLoop_nil] at he
  | cons n rest ih =>
    intro outs failed
    refine runLoop_cases smap cont timer ctx n rest outs failed
      (fun r => ∀ e ∈ r.1,
        (e.status = SeederStatus.completed ∨ e.status = SeederStatus.failed) →
        RunEvent.workInvoked e.name ∈ r.2) ?_ ?_ ?_ ?_ ?_ ?_
    · intro _ e he hst
      rcases List.mem_cons.mp he with rfl | he2
      · simp at hst
      · exact ih outs failed e he2 hst
    · intro _ e he hst
      rcases List.mem_cons.mp he with rfl | he2
      · simp at hst
      · exact ih outs failed e he2 hst
    · intro seeder _ _ e he hst
      rcases List.mem_cons.mp he with rfl | he2
      · simp at hst
      · exact ih outs (n :: failed) e he2 hst
    · intro seeder out _ _ _ e he hst
      rcases List.mem_cons.mp he with rfl | he2
      · exact List.mem_cons_self _ _
      · exact List.mem_cons.mpr (Or.inr (ih (omapSet outs n out) failed e he2 hst))
    · intro seeder er _ _ _ _ e he hst
      rcases List.mem_cons.mp he with rfl | he2
      · exact List.mem_cons_self _ _
      · exact List.mem_cons.mpr (Or.inr (ih outs (n :: failed) e he2 hst))
    · intro seeder er _ _ _ e he hst
      rcases List.mem_cons.mp he with rfl | he2
      · exact List.mem_cons_self _ _
      · rcases List.mem_map.mp he2 with ⟨m, _, rfl⟩
        simp at hst

/-- With `continueOnFailure = false`, a unit in the processing list whose
work function throws on every input (and whose nonempty name is a key of
the map) forces a `failed` entry, carrying a thrown error, into the
ledger: either that unit is reached and throws, or an earlier unit already
failed and stopped the run. -/
theorem runLoop_false_throws (smap : List (String × Seeder γ ω ε))
    (timer : String → Nat) (ctx : γ) :
    ∀ (names : List String) (outs : List (String × ω)) (failed : List String),
      (∃ n ∈ names, n ≠ "" ∧ ∃ s, omapGet smap n = some s ∧
        ∀ (c : γ) (deps : List (String × Option ω)),
          ∃ er, s.run c deps = Except.error er) →
      ∃ r ∈ (runLoop smap false timer ctx names outs failed).1,
        r.status = SeederStatus.failed ∧ r.error.isSome := by
  intro names
  induction names with
  | nil =>
    rintro outs failed ⟨n, hn, -⟩
    simp at hn
  | cons n rest ih =>
    rintro outs failed ⟨m, hm, hmne, s, hms, hthrows⟩
    refine runLoop_cases smap false timer ctx n rest outs failed
      (fun r => ∃ x ∈ r.1, x.status = SeederStatus.failed ∧ x.error.isSome)
      ?_ ?_ ?_ ?_ ?_ ?_
    · intro hem
      have hm2 : m ∈ rest := by
        rcases List.mem_cons.mp hm with rfl | h
        · exact absurd hem hmne
        · exact h
      rcases ih outs failed ⟨m, hm2, hmne, s, hms, hthrows⟩ with ⟨r, hr, hrs⟩
      exact ⟨r, List.mem_cons.mpr (Or.inr hr), hrs⟩
    · intro hget
      have hm2 : m ∈ rest := by
        rcases List.mem_cons.mp hm with rfl | h
        · rw [hget] at hms
          exact absurd hms (by simp)
        · exact h
      rcases ih outs failed ⟨m, hm2, hmne, s, hms, hthrows⟩ with ⟨r, hr, hrs⟩
      exact ⟨r, List.mem_cons.mpr (Or.inr hr), hrs⟩
    · intro seeder hget hsk
      simp at hsk
    · intro seeder out hget hnsk hrun
      have hm2 : m ∈ rest := by
        rcases List.mem_cons.mp hm with rfl | h
        · rw [hget] at hms
          obtain rfl := Option.some.inj hms
          rcases hthrows ctx
              (seeder.dependsOn.map (fun d => (d, omapGet outs d))) with ⟨er, her⟩
          rw [hrun] at her
          exact absurd her (by simp)
        · exact h
      rcases ih (omapSet outs n out) failed ⟨m, hm2, hmne, s, hms, hthrows⟩ with
        ⟨r, hr, hrs⟩
      exact ⟨r, List.mem_cons.mpr (Or.inr hr), hrs⟩
    · intro seeder er hc _ _ _
      simp at hc
    · intro seeder er _ _ _
      exact ⟨_, List.mem_cons_self _ _, rfl, by simp⟩

theorem resolveDependencyOrder_ok_eq (seeders : List (Seeder γ ω ε)) (order : List String)
    (h : resolveDependencyOrder seeders = Except.ok order) :
    order = resolveOrder seeders := by
  rcases hm : firstMissingDep (buildSeederMap seeders) seeders with _ | p
  · simp only [resolveDependencyOrder, hm] at h
    by_cases hl : (resolveOrder seeders).length = seeders.length
    · rw [if_pos hl] at h
      exact (Except.ok.inj h).symm
    · rw [if_neg hl] at h
      exact Except.noConfusion h
  · simp only [resolveDependencyOrder, hm] at h
    exact Except.noConfusion h

theorem resolveOrder_nodup (seeders : List (Seeder γ ω ε))
    (hn : (seeders.map (fun s => s.name)).Nodup) : (resolveOrder seeders).Nodup := by
  obtain ⟨d, hinv⟩ := resolveOrder_inv seeders hn
  exact hinv.ndr

theorem resolveOrder_subset (seeders : List (Seeder γ ω ε))
    (hn : (seeders.map (fun s => s.name)).Nodup) :
    ∀ x ∈ resolveOrder seeders, x ∈ seederNames seeders := by
  obtain ⟨d, hinv⟩ := resolveOrder_inv seeders hn
  exact hinv.subr

theorem buildSeederMap_isSome (seeders : List (Seeder γ ω ε)) (n : String)
    (h : n ∈ seederNames seeders) : (omapGet (buildSeederMap seeders) n).isSome := by
  rw [omapGet_isSome_iff, mem_omapKeys_buildSeederMap]
  exact h

theorem runSeedersCore_err (seeders : List (Seeder γ ω ε)) (cont : Bool)
    (timer : String → Nat) (ctx : γ) (e : ResolveError)
    (h : resolveDependencyOrder seeders = Except.error e) :
    runSeedersCore seeders cont timer ctx =
      ⟨[], false, [RunEvent.resolveFailed e]⟩ := by
  simp only [runSeedersCore, h]

theorem runSeedersCore_ok (seeders : List (Seeder γ ω ε)) (cont : Bool)
    (timer : String → Nat) (ctx : γ) (order : List String)
    (h : resolveDependencyOrder seeders = Except.ok order) :
    runSeedersCore seeders cont timer ctx =
      ⟨(runLoop (buildSeederMap seeders) cont timer ctx order [] []).1,
       ((runLoop (buildSeederMap seeders) cont timer ctx order [] []).1.countP
          (fun x => x.status == SeederStatus.failed)) == 0,
       (runLoop (buildSeederMap seeders) cont timer ctx order [] []).2⟩ := by
  simp only [runSeedersCore, h]

theorem countP_failed_eq_zero_iff (l : List (SeederResult ω ε)) :
    ((l.countP (fun x => x.status == SeederStatus.failed)) == 0) = true ↔
      ∀ r ∈ l, r.status ≠ SeederStatus.failed := by
  rw [beq_iff_eq, List.countP_eq_zero]
  simp

theorem countP_failed_false_iff (l : List (SeederResult ω ε)) :
    ((l.countP (fun x => x.status == SeederStatus.failed)) == 0) = false ↔
      ∃ r ∈ l, r.status = SeederStatus.failed := by
  rw [Bool.eq_false_iff, Ne, countP_failed_eq_zero_iff]
  push_neg
  rfl

theorem runSeedersCore_no_flagSet (seeders : List (Seeder γ ω ε)) (cont : Bool)
    (timer : String → Nat) (ctx : γ) :
    ∀ x ∈ (runSeedersCore seeders cont timer ctx).events, ∀ b, x ≠ RunEvent.flagSet b := by
  rcases h : resolveDependencyOrder seeders with e | order
  · rw [runSeedersCore_err seeders cont timer ctx e h]
    intro x hx b
    obtain rfl : x = RunEvent.resolveFailed e := by simpa using hx
    simp
  · rw [runSeedersCore_ok seeders cont timer ctx order h]
    intro x hx b
    rcases runLoop_events_sub _ cont timer ctx order [] [] x hx with ⟨m, _, rfl⟩
    simp

theorem flagAfter_concat_false (l : List RunEvent) :
    flagAfter (l ++ [RunEvent.flagSet false]) = false := by
  unfold flagAfter
  rw [List.foldl_append]
  rfl

theorem flagAfter_true_of_no_flagSet :
    ∀ (l : List RunEvent), (∀ x ∈ l, ∀ b, x ≠ RunEvent.flagSet b) →
      flagAfter (RunEvent.flagSet true :: l) = true := by
  intro l
  induction l with
  | nil => intro _; rfl
  | cons a l ih =>
    intro h
    have step : flagAfter (RunEvent.flagSet true :: a :: l) =
        flagAfter (RunEvent.flagSet true :: l) := by
      cases a with
      | workInvoked n => rfl
      | resolveFailed e => rfl
      | flagSet b => exact absurd rfl (h (RunEvent.flagSet b) (by simp) b)
    rw [step]
    exact ih (fun x hx => h x (by simp [hx]))

theorem prefix_events_no_flagSet :
    ∀ (pre core post : List RunEvent) (n : String),
      (∀ x ∈ core, ∀ b, x ≠ RunEvent.flagSet b) →
      pre ++ RunEvent.workInvoked n :: post = core ++ [RunEvent.flagSet false] →
      ∀ x ∈ pre, ∀ b, x ≠ RunEvent.flagSet b := by
  intro pre
  induction pre with
  | nil => intro core post n _ _ x hx; simp at hx
  | cons a pre2 ih =>
    intro core post n hcore heq x hx
    cases core with
    | nil =>
      rw [List.nil_append, List.cons_append] at heq
      have h2 := List.cons.inj heq
      exact absurd h2.2 (by simp)
    | cons c core2 =>
      rw [List.cons_append, List.cons_append] at heq
      have h2 := List.cons.inj heq
      rcases List.mem_cons.mp hx with rfl | hx2
      · intro b
        rw [h2.1]
        exact hcore c (by simp) b
      · exact ih core2 post n (fun y hy => hcore y (by simp [hy])) h2.2 x hx2

end RunnerLemmas

/-! ## The claims -/

section Claims

variable {γ ω ε : Type}

/-- C1: for every registry with unique names, all dependency names present,
and an acyclic dependency graph, `resolveDependencyOrder` returns an order
that is a permutation of the unit names (every name exactly once) in which
every unit appears strictly after every name in its dependency list. -/
theorem claim_C1 (seeders : List (Seeder γ ω ε))
    (hn : (seeders.map (fun s => s.name)).Nodup)
    (hdeps : ∀ s ∈ seeders, ∀ d ∈ s.dependsOn, d ∈ seederNames seeders)
    (hacyc : Acyclic seeders) :
    ∃ order, resolveDependencyOrder seeders = Except.ok order ∧
      order.Perm (seederNames seeders) ∧
      ∀ s ∈ seeders, ∀ d ∈ s.dependsOn, order.indexOf d < order.indexOf s.name := by
  obtain ⟨h1, h2, h3⟩ := resolveDependencyOrder_of_acyclic seeders hn hdeps hacyc
  exact ⟨resolveOrder seeders, h1, h2, h3⟩

/-- Witness for C1: the two-unit registry `[uA, uB]` ("B" depends on "A"). -/
theorem claim_C1_witness :
    ∃ order, resolveDependencyOrder [uA, uB] = Except.ok order ∧
      order.Perm (seederNames [uA, uB]) ∧
      ∀ s ∈ [uA, uB], ∀ d ∈ s.dependsOn, order.indexOf d < order.indexOf s.name := by
  have hedge : ∀ u v, DepEdge [uA, uB] u v → u = "B" ∧ v = "A" := by
    rintro u v ⟨s, hs, hname, hdep⟩
    rcases (by simpa using hs : s = uA ∨ s = uB) with rfl | rfl
    · simp [uA] at hdep
    · exact ⟨hname.symm, by simpa [uB] using hdep⟩
  have hacyc : Acyclic [uA, uB] := by
    intro u hu
    have key : ∀ a b, Relation.TransGen (DepEdge [uA, uB]) a b → a = "B" ∧ b = "A" := by
      intro a b h
      induction h with
      | single h1 => exact hedge _ _ h1
      | tail h1 h2 ih =>
        have hmid := (hedge _ _ h2).1
        rw [ih.2] at hmid
        exact absurd hmid (by decide)
    have h2 := key u u hu
    exact absurd (h2.1.symm.trans h2.2) (by decide)
  exact claim_C1 [uA, uB] (by decide) (by decide) hacyc

/-- C2: with `continueOnFailure = false`, a run containing a unit whose
work function throws (nonempty name, present in the order): the full
ledger is still returned with one entry per ordered unit in order; some
entry — a unit whose work was invoked and threw — has status `failed`
with the thrown error recorded; the returned success flag is `false`;
every entry after a failed entry is still `pending`; and pending entries
never had their work invoked. -/
theorem claim_C2 (seeders : List (Seeder γ ω ε)) (timer : String → Nat) (ctx : γ)
    (order : List String)
    (hn : (seeders.map (fun s => s.name)).Nodup)
    (hok : resolveDependencyOrder seeders = Except.ok order)
    (hthrow : ∃ n ∈ order, n ≠ "" ∧ ∃ s, omapGet (buildSeederMap seeders) n = some s ∧
      ∀ (c : γ) (deps : List (String × Option ω)),
        ∃ er, s.run c deps = Except.error er) :
    (runSeedersCore seeders false timer ctx).results.map (fun e => e.name) = order ∧
    (∃ r ∈ (runSeedersCore seeders false timer ctx).results,
      r.status = SeederStatus.failed ∧ r.error.isSome ∧
      RunEvent.workInvoked r.name ∈ (runSeedersCore seeders false timer ctx).events) ∧
    (runSeedersCore seeders false timer ctx).success = false ∧
    afterFailedPending (runSeedersCore seeders false timer ctx).results ∧
    (∀ e ∈ (runSeedersCore seeders false timer ctx).results,
      e.status = SeederStatus.pending →
      RunEvent.workInvoked e.name ∉ (runSeedersCore seeders false timer ctx).events) := by
  have horder := resolveDependencyOrder_ok_eq seeders order hok
  have hnodup : order.Nodup := horder ▸ resolveOrder_nodup seeders hn
  rw [runSeedersCore_ok seeders false timer ctx order hok]
  obtain ⟨r, hr, hrf, hre⟩ :=
    runLoop_false_throws (buildSeederMap seeders) timer ctx order [] [] hthrow
  have hinv := runLoop_invoked (buildSeederMap seeders) false timer ctx order [] []
    r hr (Or.inr hrf)
  refine ⟨runLoop_names _ false timer ctx order [] [], ⟨r, hr, hrf, hre, hinv⟩,
    (countP_failed_false_iff _).mpr ⟨r, hr, hrf⟩,
    runLoop_false_afterFailed _ timer ctx order [] [], ?_⟩
  intro e he hst
  exact runLoop_not_invoked _ false timer ctx order [] [] hnodup e he (Or.inl hst)

/-- Witness for C2: `[uAfail, uB]` ("A" always throws) run with
`continueOnFailure = false`. -/
theorem claim_C2_witness :
    (runSeedersCore [uAfail, uB] false timer7 ()).results.map (fun e => e.name) =
        ["A", "B"] ∧
    (∃ r ∈ (runSeedersCore [uAfail, uB] false timer7 ()).results,
      r.status = SeederStatus.failed ∧ r.error.isSome ∧
      RunEvent.workInvoked r.name ∈ (runSeedersCore [uAfail, uB] false timer7 ()).events) ∧
    (runSeedersCore [uAfail, uB] false timer7 ()).success = false ∧
    afterFailedPending (runSeedersCore [uAfail, uB] false timer7 ()).results ∧
    (∀ e ∈ (runSeedersCore [uAfail, uB] false timer7 ()).results,
      e.status = SeederStatus.pending →
      RunEvent.workInvoked e.name ∉ (runSeedersCore [uAfail, uB] false timer7 ()).events) :=
  claim_C2 [uAfail, uB] timer7 () ["A", "B"] (by decide) (by rfl)
    ⟨"A", by decide, by decide, uAfail, rfl, fun c deps => ⟨(), rfl⟩⟩

/-- C3, amended to registries with no empty unit name: with
`continueOnFailure = true`, every ordered unit gets a ledger entry; an
entry is `skipped` exactly when some declared dependency is in the running
failed-set (previous failed or skipped entries, so skipping propagates
transitively); a non-skipped entry had its work invoked and is `completed`
or `failed`; skipped entries never had their work invoked; and the success
flag is `false` whenever some entry failed.  Without the no-empty-name
hypothesis the second conjunct is false of the program: the engine's
falsy-name guard (`if (!name || !result) continue`, run-seeders.ts line
95) leaves a unit named `""` `pending` without invoking its work even
though it has no failed or skipped ancestor. -/
theorem claim_C3 (seeders : List (Seeder γ ω ε)) (timer : String → Nat) (ctx : γ)
    (order : List String)
    (hnn : ∀ s ∈ seeders, s.name ≠ "")
    (hn : (seeders.map (fun s => s.name)).Nodup)
    (hok : resolveDependencyOrder seeders = Except.ok order) :
    (runSeedersCore seeders true timer ctx).results.map (fun e => e.name) = order ∧
    (∀ j (hj : j < (runSeedersCore seeders true timer ctx).results.length),
      (((runSeedersCore seeders true timer ctx).results.get ⟨j, hj⟩).status =
          SeederStatus.skipped ↔
        skipCond (buildSeederMap seeders) []
          ((runSeedersCore seeders true timer ctx).results.take j)
          (((runSeedersCore seeders true timer ctx).results.get ⟨j, hj⟩).name)) ∧
      (((runSeedersCore seeders true timer ctx).results.get ⟨j, hj⟩).status ≠
          SeederStatus.skipped →
        RunEvent.workInvoked
            (((runSeedersCore seeders true timer ctx).results.get ⟨j, hj⟩).name) ∈
          (runSeedersCore seeders true timer ctx).events ∧
        (((runSeedersCore seeders true timer ctx).results.get ⟨j, hj⟩).status =
            SeederStatus.completed ∨
          ((runSeedersCore seeders true timer ctx).results.get ⟨j, hj⟩).status =
            SeederStatus.failed))) ∧
    (∀ e ∈ (runSeedersCore seeders true timer ctx).results,
      e.status = SeederStatus.skipped →
      RunEvent.workInvoked e.name ∉ (runSeedersCore seeders true timer ctx).events) ∧
    ((∃ r ∈ (runSeedersCore seeders true timer ctx).results,
        r.status = SeederStatus.failed) →
      (runSeedersCore seeders true timer ctx).success = false) := by
  have horder := resolveDependencyOrder_ok_eq seeders order hok
  have hnodup : order.Nodup := horder ▸ resolveOrder_nodup seeders hn
  have hords : ∀ m ∈ order, m ∈ seederNames seeders := by
    intro m hm
    exact resolveOrder_subset seeders hn m (horder ▸ hm)
  have hsm : ∀ m ∈ order, (omapGet (buildSeederMap seeders) m).isSome := by
    intro m hm
    exact buildSeederMap_isSome seeders m (hords m hm)
  have hone : ∀ m ∈ order, m ≠ "" := by
    intro m hm
    rcases List.mem_map.mp (hords m hm) with ⟨s, hs, rfl⟩
    exact hnn s hs
  rw [runSeedersCore_ok seeders true timer ctx order hok]
  refine ⟨runLoop_names _ true timer ctx order [] [], ?_, ?_, ?_⟩
  · intro j hj
    exact runLoop_true_char (buildSeederMap seeders) timer ctx order [] [] hone hsm j hj
  · intro e he hst
    exact runLoop_not_invoked _ true timer ctx order [] [] hnodup e he (Or.inr hst)
  · intro hex
    exact (countP_failed_false_iff _).mpr hex

/-- Witness for C3: `[uAfail, uB, uC]` ("A" fails, "B" depends on "A",
"C" is independent) run with `continueOnFailure = true`. -/
theorem claim_C3_witness :
    (runSeedersCore [uAfail, uB, uC] true timer7 ()).results.map (fun e => e.name) =
        ["A", "C", "B"] ∧
    (∀ j (hj : j < (runSeedersCore [uAfail, uB, uC] true timer7 ()).results.length),
      (((runSeedersCore [uAfail, uB, uC] true timer7 ()).results.get ⟨j, hj⟩).status =
          SeederStatus.skipped ↔
        skipCond (buildSeederMap [uAfail, uB, uC]) []
          ((runSeedersCore [uAfail, uB, uC] true timer7 ()).results.take j)
          (((runSeedersCore [uAfail, uB, uC] true timer7 ()).results.get ⟨j, hj⟩).name)) ∧
      (((runSeedersCore [uAfail, uB, uC] true timer7 ()).results.get ⟨j, hj⟩).status ≠
          SeederStatus.skipped →
        RunEvent.workInvoked
            (((runSeedersCore [uAfail, uB, uC] true timer7 ()).results.get ⟨j, hj⟩).name) ∈
          (runSeedersCore [uAfail, uB, uC] true timer7 ()).events ∧
        (((runSeedersCore [uAfail, uB, uC] true timer7 ()).results.get ⟨j, hj⟩).status =
            SeederStatus.completed ∨
          ((runSeedersCore [uAfail, uB, uC] true timer7 ()).results.get ⟨j, hj⟩).status =
            SeederStatus.failed))) ∧
    (∀ e ∈ (runSeedersCore [uAfail, uB, uC] true timer7 ()).results,
      e.status = SeederStatus.skipped →
      RunEvent.workInvoked e.name ∉ (runSeedersCore [uAfail, uB, uC] true timer7 ()).events) ∧
    ((∃ r ∈ (runSeedersCore [uAfail, uB, uC] true timer7 ()).results,
        r.status = SeederStatus.failed) →
      (runSeedersCore [uAfail, uB, uC] true timer7 ()).success = false) :=
  claim_C3 [uAfail, uB, uC] timer7 () ["A", "C", "B"] (by decide) (by decide) (by rfl)

/-- Counterexample to C3 as frozen: in the registry `[uEmpty]` — a single
unit bearing the empty name, no dependencies, a work function that would
succeed — resolution succeeds and, with `continueOnFailure = true`, the
unit has no failed or skipped ancestor and is not `skipped`, yet its work
is never invoked (no `workInvoked` event) and its entry stays `pending`:
`"units with no failed or skipped ancestor still execute"` fails. -/
theorem claim_C3_counterexample :
    resolveDependencyOrder [uEmpty] = Except.ok [""] ∧
    (runSeedersCore [uEmpty] true timer7 ()).results =
      [⟨"", SeederStatus.pending, none, none, none⟩] ∧
    (runSeedersCore [uEmpty] true timer7 ()).events = [] ∧
    (runSeedersCore [uEmpty] true timer7 ()).success = true :=
  ⟨rfl, rfl, rfl, rfl⟩

/-- C4: a registry in which some unit lists an absent dependency name makes
`resolveDependencyOrder` fail with `MissingDependencyError` naming a unit
and a dependency that genuinely form such a pair — with no acyclicity
hypothesis, so the validation verdict also covers registries that contain a
cycle. -/
theorem claim_C4 (seeders : List (Seeder γ ω ε))
    (hmiss : ∃ s ∈ seeders, ∃ d ∈ s.dependsOn, d ∉ seederNames seeders) :
    ∃ u m, resolveDependencyOrder seeders =
        Except.error (ResolveError.missingDependencyError u m) ∧
      ∃ s ∈ seeders, s.name = u ∧ m ∈ s.dependsOn ∧ m ∉ seederNames seeders :=
  resolveDependencyOrder_of_missing seeders hmiss

/-- Witness for C4: `[uMiss, uSelf]` — a missing dependency and a cycle in
the same registry; the missing dependency wins. -/
theorem claim_C4_witness :
    ∃ u m, resolveDependencyOrder [uMiss, uSelf] =
        Except.error (ResolveError.missingDependencyError u m) ∧
      ∃ s ∈ [uMiss, uSelf], s.name = u ∧ m ∈ s.dependsOn ∧
        m ∉ seederNames [uMiss, uSelf] :=
  claim_C4 [uMiss, uSelf]
    ⟨uMiss, List.mem_cons_self _ _, "ghost", by decide, by decide⟩

/-- C5: a registry with unique names and present dependencies whose graph
has a cycle (a self-dependency included) makes `resolveDependencyOrder`
fail with `CircularDependencyError`, and the reported name sequence is a
genuine dependency cycle: consecutive members are dependency edges and the
last member depends on the first, so no unrelated or merely-downstream
unit appears. -/
theorem claim_C5 (seeders : List (Seeder γ ω ε))
    (hn : (seeders.map (fun s => s.name)).Nodup)
    (hdeps : ∀ s ∈ seeders, ∀ d ∈ s.dependsOn, d ∈ seederNames seeders)
    (hcyc : ∃ u, Relation.TransGen (DepEdge seeders) u u) :
    ∃ c, resolveDependencyOrder seeders =
        Except.error (ResolveError.circularDependencyError c) ∧
      IsDepCycle seeders c := by
  obtain ⟨hlen, herr⟩ := resolveDependencyOrder_of_cycle seeders hn hdeps hcyc
  exact ⟨_, herr, findCycle_genuine seeders hn hdeps hcyc⟩

/-- Witness for C5: the self-dependency registry `[uSelf]`. -/
theorem claim_C5_witness :
    ∃ c, resolveDependencyOrder [uSelf] =
        Except.error (ResolveError.circularDependencyError c) ∧
      IsDepCycle [uSelf] c :=
  claim_C5 [uSelf] (by decide) (by decide)
    ⟨"S", Relation.TransGen.single ⟨uSelf, List.mem_cons_self _ _, rfl, by decide⟩⟩

/-- C6: when dependency resolution itself fails, the engine invokes no
unit's work, returns the empty ledger with `success = false`, and surfaces
the structural condition to its caller (the `resolveFailed` event) rather
than recording it in any per-unit entry. -/
theorem claim_C6 (seeders : List (Seeder γ ω ε)) (cont : Bool)
    (timer : String → Nat) (ctx : γ) (e : ResolveError)
    (herr : resolveDependencyOrder seeders = Except.error e) :
    runSeedersCore seeders cont timer ctx =
        ⟨[], false, [RunEvent.resolveFailed e]⟩ ∧
      ∀ n, RunEvent.workInvoked n ∉ (runSeedersCore seeders cont timer ctx).events := by
  have h := runSeedersCore_err seeders cont timer ctx e herr
  refine ⟨h, ?_⟩
  rw [h]
  intro n hc
  simp at hc

/-- Witness for C6: the missing-dependency registry `[uMiss]`. -/
theorem claim_C6_witness :
    runSeedersCore [uMiss] true timer7 () =
        ⟨[], false, [RunEvent.resolveFailed
          (ResolveError.missingDependencyError "M" "ghost")]⟩ ∧
      ∀ n, RunEvent.workInvoked n ∉ (runSeedersCore [uMiss] true timer7 ()).events :=
  claim_C6 [uMiss] true timer7 ()
    (ResolveError.missingDependencyError "M" "ghost") (by rfl)

/-- C7: on unique names the resolver's order is exactly the order of the
spec's Kahn discipline (in-degree = own dependency count, ready queue
seeded with the zero-in-degree units in registry order, FIFO processing,
newly ready dependents appended), so whatever order
`resolveDependencyOrder` succeeds with is that spec order. -/
theorem claim_C7 (seeders : List (Seeder γ ω ε))
    (hn : (seeders.map (fun s => s.name)).Nodup) :
    resolveOrder seeders = specKahnOrder seeders ∧
      ∀ order, resolveDependencyOrder seeders = Except.ok order →
        order = specKahnOrder seeders := by
  refine ⟨resolveOrder_eq_specKahnOrder seeders hn, ?_⟩
  intro order hok
  rw [resolveDependencyOrder_ok_eq seeders order hok]
  exact resolveOrder_eq_specKahnOrder seeders hn

/-- Witness for C7: the registry `[uB, uA]`, whose declaration order differs
from the produced order. -/
theorem claim_C7_witness :
    resolveOrder [uB, uA] = specKahnOrder [uB, uA] ∧
      ∀ order, resolveDependencyOrder [uB, uA] = Except.ok order →
        order = specKahnOrder [uB, uA] :=
  claim_C7 [uB, uA] (by decide)

/-- C8: every ledger entry of every run satisfies the field discipline:
duration is present exactly for `completed` or `failed` entries, output
only for `completed`, error only for `failed`; hence `pending` and
`skipped` entries carry no duration, no output and no error. -/
theorem claim_C8 (seeders : List (Seeder γ ω ε)) (cont : Bool)
    (timer : String → Nat) (ctx : γ) :
    ∀ e ∈ (runSeedersCore seeders cont timer ctx).results,
      fieldInv e ∧
      ((e.status = SeederStatus.pending ∨ e.status = SeederStatus.skipped) →
        e.durationMs = none ∧ e.output = none ∧ e.error = none) := by
  intro e he
  have hf : fieldInv e := by
    rcases h : resolveDependencyOrder seeders with er | order
    · rw [runSeedersCore_err seeders cont timer ctx er h] at he
      simp at he
    · rw [runSeedersCore_ok seeders cont timer ctx order h] at he
      exact runLoop_fieldInv _ cont timer ctx order [] [] e he
  refine ⟨hf, ?_⟩
  intro hst
  obtain ⟨h1, h2, h3⟩ := hf
  have hne : ¬(e.status = SeederStatus.completed ∨ e.status = SeederStatus.failed) := by
    rcases hst with hst | hst <;> rw [hst] <;> simp
  refine ⟨?_, ?_, ?_⟩
  · rcases hd : e.durationMs with _ | v
    · rfl
    · exact absurd (h1.mp (by simp [hd])) hne
  · rcases ho : e.output with _ | v
    · rfl
    · exact absurd (Or.inl (h2 (by simp [ho]))) hne
  · rcases he2 : e.error with _ | v
    · rfl
    · exact absurd (Or.inr (h3 (by simp [he2]))) hne

/-- Witness for C8: the failed entry of the `[uAfail, uB]` run. -/
theorem claim_C8_witness :
    fieldInv (⟨"A", SeederStatus.failed, some 7, none, some ()⟩ : SeederResult Nat Unit) ∧
      (((⟨"A", SeederStatus.failed, some 7, none, some ()⟩ : SeederResult Nat Unit).status =
           SeederStatus.pending ∨
        (⟨"A", SeederStatus.failed, some 7, none, some ()⟩ : SeederResult Nat Unit).status =
          SeederStatus.skipped) →
        (⟨"A", SeederStatus.failed, some 7, none, some ()⟩ : SeederResult Nat Unit).durationMs =
            none ∧
          (⟨"A", SeederStatus.failed, some 7, none, some ()⟩ : SeederResult Nat Unit).output =
            none ∧
          (⟨"A", SeederStatus.failed, some 7, none, some ()⟩ : SeederResult Nat Unit).error =
            none) :=
  claim_C8 [uAfail, uB] false timer7 ()
    ⟨"A", SeederStatus.failed, some 7, none, some ()⟩ (by decide)

/-- C9: around every run, the process-wide seeding flag is written `true`
before anything else happens and written `false` at the very end — the
event trace starts with `flagSet true`, ends with `flagSet false`, the flag
reads `false` once the ledger is handed back, and at the point of every
work invocation the flag reads `true`.  This also covers runs that stop
early and runs whose resolution fails. -/
theorem claim_C9 (seeders : List (Seeder γ ω ε)) (cont : Bool)
    (timer : String → Nat) (ctx : γ) :
    (runSeeders seeders cont timer ctx).events.head? = some (RunEvent.flagSet true) ∧
    (runSeeders seeders cont timer ctx).events.getLast? = some (RunEvent.flagSet false) ∧
    flagAfter (runSeeders seeders cont timer ctx).events = false ∧
    ∀ pre n post,
      (runSeeders seeders cont timer ctx).events =
        pre ++ RunEvent.workInvoked n :: post →
      flagAfter pre = true := by
  have hcore := runSeedersCore_no_flagSet seeders cont timer ctx
  have hev : (runSeeders seeders cont timer ctx).events =
      RunEvent.flagSet true :: (runSeedersCore seeders cont timer ctx).events ++
        [RunEvent.flagSet false] := rfl
  refine ⟨by rw [hev]; rfl, ?_, ?_, ?_⟩
  · rw [hev, List.getLast?_concat]
  · rw [hev]
    exact flagAfter_concat_false _
  · intro pre n post heq
    rw [hev, List.cons_append] at heq
    cases pre with
    | nil => simp at heq
    | cons a pre2 =>
      rw [List.cons_append] at heq
      have h2 := List.cons.inj heq
      have hpre2 : ∀ x ∈ pre2, ∀ b, x ≠ RunEvent.flagSet b :=
        prefix_events_no_flagSet pre2 _ post n hcore h2.2.symm
      rw [← h2.1]
      exact flagAfter_true_of_no_flagSet pre2 hpre2

/-- C10 (implicit): two distinct unit definitions sharing one name — an
acyclic registry — are collapsed by the name-keyed map, the Kahn phase
covers the name once, and the resolver misreports the duplication as
`CircularDependencyError` with an empty cycle (the residual fallback on an
empty remaining list). -/
theorem claim_C10 :
    dupA1 ≠ dupA2 ∧
    dupA1.name = dupA2.name ∧
    Acyclic [dupA1, dupA2] ∧
    omapGet (buildSeederMap [dupA1, dupA2]) "A" = some dupA2 ∧
    resolveOrder [dupA1, dupA2] = ["A"] ∧
    (resolveOrder [dupA1, dupA2]).length <
      ([dupA1, dupA2] : List (Seeder Unit Nat Unit)).length ∧
    resolveDependencyOrder [dupA1, dupA2] =
      Except.error (ResolveError.circularDependencyError []) := by
  have hne : dupA1 ≠ dupA2 := by
    intro h
    have h2 := congrArg (fun s => s.run () []) h
    simp [dupA1, dupA2] at h2
  have hnoedge : ∀ u v, ¬ DepEdge [dupA1, dupA2] u v := by
    rintro u v ⟨s, hs, -, hdep⟩
    rcases (by simpa using hs : s = dupA1 ∨ s = dupA2) with rfl | rfl
    · simp [dupA1] at hdep
    · simp [dupA2] at hdep
  have hacyc : Acyclic [dupA1, dupA2] := by
    intro u hu
    cases hu with
    | single h => exact hnoedge _ _ h
    | tail _ h => exact hnoedge _ _ h
  exact ⟨hne, rfl, hacyc, rfl, rfl, by decide, rfl⟩

end Claims

end Plantr
